import Mathlib

/-!
Verification of the byteps-compress server core against its specification.

Scalar tensors are embedded as lists of rationals; the elementwise reducer
helpers of `byteps/common/compressor/utils.h` become list operations, the
compressor decorators (`momentum.cc`, `nesterov_momentum.cc`,
`corrected_error_feedback.cc`, `sparse_error_feedback.cc`) become explicit
state-passing functions, and the server handler / engine bookkeeping of
`byteps/server/server.cc` becomes a step function on an explicit per-key
shard state.
-/

namespace BytePS

/-- Dtype tags of the data model (`DataType` in common.h, as used by the
reducer dispatch in `utils.h`). -/
inductive DataType where
  | BYTEPS_FLOAT32
  | BYTEPS_FLOAT64
  | BYTEPS_FLOAT16
  | BYTEPS_UINT8
  | BYTEPS_INT32
  | BYTEPS_INT8
  | BYTEPS_INT64
  deriving DecidableEq, Repr

/-- Elementwise `dst[i] = dst[i] + alpha * src[i]` — the two-source `_sum`
overload of `utils.h` (`dst += α·src`), on scalar lists. -/
def sumScaled (dst src : List ℚ) (alpha : ℚ) : List ℚ :=
  List.zipWith (fun d s => d + alpha * s) dst src

/-- Elementwise `dst[i] = src1[i] + alpha * src2[i]` — the three-source
`_sum` overload of `utils.h`, on scalar lists. -/
def sum3 (src1 src2 : List ℚ) (alpha : ℚ) : List ℚ :=
  List.zipWith (fun a b => a + alpha * b) src1 src2

/-! ## Nesterov momentum decorator (momentum.cc, nesterov_momentum.cc) -/

/-- State of `NesterovMomentumCompressor`: the momentum buffer `_buf` and the
hyper-parameter `_mu`. -/
structure NesterovState where
  m : List ℚ
  mu : ℚ
  deriving Repr

/-- `NesterovMomentumCompressor::UpdateMom`: `_buf = grad + mu * _buf`
(the three-source `sum` with `dst = _buf`, `src1 = grad`, `src2 = _buf`). -/
def NesterovUpdateMom (s : NesterovState) (grad : List ℚ) : NesterovState :=
  ⟨sum3 grad s.m s.mu, s.mu⟩

/-- `NesterovMomentumCompressor::UpdateGradient`: `grad += mu * _buf`
(the two-source `sum`), in place on the gradient. -/
def NesterovUpdateGradient (s : NesterovState) (grad : List ℚ) : List ℚ :=
  sumScaled grad s.m s.mu

/-- `Momentum::Compress` (momentum.cc): `UpdateMom`, then `UpdateGradient`,
then delegate to the inner compressor `_cptr->Compress`. Returns the inner
compressor's output together with the updated decorator state. -/
def MomentumCompress {β : Type} (inner : List ℚ → β) (s : NesterovState)
    (grad : List ℚ) : β × NesterovState :=
  let s1 := NesterovUpdateMom s grad
  let g1 := NesterovUpdateGradient s1 grad
  (inner g1, s1)

/-- `Momentum::Decompress` (momentum.cc): directly forward to the internal
compressor. -/
def MomentumDecompress {β : Type} (innerDecompress : List ℚ → β)
    (compressed : List ℚ) : β :=
  innerDecompress compressed

/-! ## Corrected error feedback (corrected_error_feedback.cc) -/

/-- State of `CorrectedErrorFeedbackCompressor`: the error buffer `_buf` and
the previous learning rate `_pre_lr`.  The current learning rate is read from
the 8-byte `lr.s` shared-memory region each call; the embedding passes that
read value as an explicit argument. -/
structure CorrectedEFState where
  pre_lr : ℚ
  error : List ℚ
  deriving Repr, DecidableEq

/-- `CorrectedErrorFeedbackCompressor::UpdateGradient`: read `_cur_lr` from
the mapped region, do `grad += (_pre_lr / _cur_lr) * _buf`, then set
`_pre_lr = _cur_lr`.  `cur_lr` is the double read from `lr.s`. -/
def CorrectedEFUpdateGradient (s : CorrectedEFState) (cur_lr : ℚ)
    (grad : List ℚ) : List ℚ × CorrectedEFState :=
  (sumScaled grad s.error (s.pre_lr / cur_lr), ⟨cur_lr, s.error⟩)

/-! ## Hyper-parameter lookup (HyperParamFinder in utils.h) -/

/-- `HyperParamFinder<T>` from `utils.h`.  `kwargs` is the deserialized
key→value map, `parse` stands for the `istringstream` extraction into `T`,
`default` is the zero-initialized `T value{T()}`.  A fatal `BPS_LOG(FATAL)`
abort is modelled as `none`: missing-and-required aborts, and a parsed value
rejected by `check` aborts; otherwise the parsed value (or the default, when
the name is missing but optional) is returned. -/
def HyperParamFinder {T : Type} (dflt : T) (parse : String → T)
    (kwargs : List (String × String)) (nm : String) (optional : Bool)
    (check : T → Bool) : Option T :=
  match kwargs.lookup nm with
  | none => if optional then some dflt else none
  | some s =>
    let value := parse s
    if check value then some value else none

/-- Seed handling in the `SparseErrorFeedbackCompressor` constructor
(sparse_error_feedback.cc): `if (seed) _rng.set_seed(seed + k)` — the RNG
state is reseeded only when the seed hyper-parameter is nonzero. -/
def SparseEFSeedRng (seed k : ℕ) (setSeed : ℕ → α) (keep : α) : α :=
  if seed ≠ 0 then setSeed (seed + k) else keep

/-! ## Xorshift128+ RNG (XorShift128PlusBitShifterRNG in utils.h) -/

/-- Width modulus of the 64-bit machine words of the RNG. -/
def U64 : ℕ := 2 ^ 64

/-- State `{a, b}` of `XorShift128PlusBitShifterRNG`. -/
structure XorShiftState where
  a : ℕ
  b : ℕ
  deriving Repr, DecidableEq

/-- `xorshift128p`: `t ^= t << 23; t ^= t >> 17; t ^= s ^ (s >> 26);` over
64-bit words, returning `t + s` (mod 2^64) and the shifted state `{b, t}`. -/
def xorshift128p (s : XorShiftState) : ℕ × XorShiftState :=
  let t0 := s.a
  let sb := s.b
  let t1 := Nat.xor t0 ((t0 * 2 ^ 23) % U64)
  let t2 := Nat.xor t1 (t1 / 2 ^ 17)
  let t3 := Nat.xor t2 (Nat.xor sb (sb / 2 ^ 26))
  ((t3 + sb) % U64, ⟨sb, t3⟩)

/-- `Randint(low, high)`: uniform int among `[low, high)` by modulo. -/
def Randint (s : XorShiftState) (low high : ℕ) : ℕ × XorShiftState :=
  let r := xorshift128p s
  (r.1 % (high - low) + low, r.2)

/-- `set_seed(seed)`: the state becomes `{seed, seed}`. -/
def RngSetSeed (seed : ℕ) : XorShiftState :=
  ⟨seed, seed⟩

/-! ## sparse_sum (utils.h) and the sparse error feedback server path -/

/-- Loop body of `_sparse_sum`: for each position `i` (dense index into
`dst`), `dst[i] += src[idx_list[i]] * alpha` and then `src[idx_list[i]] = 0`,
sequentially over the index list. -/
def sparseSumLoop (alpha : ℚ) : List ℕ → ℕ → List ℚ → List ℚ → List ℚ × List ℚ
  | [], _, dst, src => (dst, src)
  | j :: rest, i, dst, src =>
    sparseSumLoop alpha rest (i + 1)
      (dst.set i (dst.getD i 0 + src.getD j 0 * alpha)) (src.set j 0)

/-- `_sparse_sum(dst, src, len, alpha, idx_list)` on scalar lists. -/
def sparseSumImpl (dst src : List ℚ) (alpha : ℚ) (idx : List ℕ) : List ℚ × List ℚ :=
  sparseSumLoop alpha idx 0 dst src

/-- Dispatcher `sparse_sum` of `utils.h`: defined for the floating dtypes
only; any other dtype hits `BPS_CHECK(0)` (modelled as `none`). -/
def sparse_sum (dtype : DataType) (dst src : List ℚ) (alpha : ℚ)
    (idx : List ℕ) : Option (List ℚ × List ℚ) :=
  match dtype with
  | .BYTEPS_FLOAT32 => some (sparseSumImpl dst src alpha idx)
  | .BYTEPS_FLOAT64 => some (sparseSumImpl dst src alpha idx)
  | .BYTEPS_FLOAT16 => some (sparseSumImpl dst src alpha idx)
  | _ => none

/-- State of `SparseErrorFeedbackCompressor`: previous learning rate, error
buffer `_buf`, the RNG, and the hyper-parameter `_k`. -/
structure SparseEFState where
  pre_lr : ℚ
  error : List ℚ
  rng : XorShiftState
  k : ℕ

/-- Index sampling loop of the server-side `UpdateGradient`: `_k` draws of
`_rng.Randint(0, len)`, pushed in order. -/
def drawIndices : ℕ → ℕ → XorShiftState → List ℕ × XorShiftState
  | 0, _, s => ([], s)
  | Nat.succ n, len, s =>
    let r := Randint s 0 len
    let rest := drawIndices n len r.2
    (r.1 :: rest.1, rest.2)

/-- Server-side (`BYTEPS_BUILDING_SERVER`) branch of
`SparseErrorFeedbackCompressor::UpdateGradient`: read `_cur_lr`, sample `_k`
indices with replacement from `[0, len)`, apply `sparse_sum` with
`alpha = _pre_lr / _cur_lr`, clear the index list, set `_pre_lr = _cur_lr`. -/
def SparseEFUpdateGradient (st : SparseEFState) (cur_lr : ℚ) (grad : List ℚ)
    (dtype : DataType) : Option (List ℚ × SparseEFState) :=
  let len := grad.length
  let draws := drawIndices st.k len st.rng
  match sparse_sum dtype grad st.error (st.pre_lr / cur_lr) draws.1 with
  | none => none
  | some r => some (r.1, ⟨cur_lr, r.2, draws.2, st.k⟩)

/-! ## Elias-delta codec (utils.h), at the level of the emitted bit stream -/

/-- Bits emitted by the loop `for (int i = w - 1; i >= 0; i--) Put((v >> i) & 1)`:
the `w` low bits of `v`, most significant first (`(v >> i) & 1` is `testBit v i`). -/
def lowBits (v : ℕ) : ℕ → List Bool
  | 0 => []
  | w + 1 => v.testBit w :: lowBits v w

/-- `EliasDeltaEncode(bit_writer, x)`, parametrized on the integer `flog2x`
that the source's `std::floor(std::log2(x))` (utils.h:192) returned: the
source computes `len = 1 + flog2x` through double-precision floating point,
so `flog2x` is an input of the embedding rather than assumed equal to the
exact `⌊log2 x⌋`.  `lenth_of_len = std::floor(std::log2(len))` is embedded
as exact `Nat.log2 len`: `len` is a small `int`, converted to double
exactly, and no attainable `len` lies within double rounding distance of a
larger power of two.  The loops emit `lenth_of_len` zeros, then the bits
`len >> i & 1` for `i = lenth_of_len … 0`, then `x >> i & 1` for
`i = len − 2 … 0`. -/
def EliasDeltaEncodeWith (flog2x x : ℕ) : List Bool :=
  let len := 1 + flog2x
  let ll := Nat.log2 len
  List.replicate ll false ++ lowBits len (ll + 1) ++ lowBits x (len - 1)

/-- Conversion of a 64-bit unsigned integer to an IEEE-754 double — the
implicit argument conversion in the call `std::log2(x)` of utils.h:192 —
as exact integer arithmetic: round to 53 significant bits, ties to even.
Values below `2^53` are exact. -/
def roundDouble (n : ℕ) : ℕ :=
  let k := Nat.log2 n
  if k ≤ 52 then n
  else
    let step := 2 ^ (k - 52)
    let q := n / step
    let r := n % step
    if r * 2 < step then q * step
    else if r * 2 > step then (q + 1) * step
    else if q % 2 = 0 then q * step
    else (q + 1) * step

/-- Zero-counting loop of `EliasDeltaDecode`: `while (!bit_reader.Get())
lenth_of_len++` — consumes the leading zeros and the terminating one bit. -/
def countZeros : List Bool → ℕ × List Bool
  | [] => (0, [])
  | false :: t => let r := countZeros t; (r.1 + 1, r.2)
  | true :: t => (0, t)

/-- Accumulation loop of `EliasDeltaDecode`: `n` times
`acc <<= 1; if (Get()) acc |= 1`. -/
def readFold : ℕ → ℕ → List Bool → ℕ × List Bool
  | 0, acc, s => (acc, s)
  | _ + 1, acc, [] => (acc, [])
  | n + 1, acc, b :: t => readFold n (2 * acc + (if b then 1 else 0)) t

/-- `EliasDeltaDecode(bit_reader)`: count zeros into `lenth_of_len`, rebuild
`len` from 1 over `lenth_of_len` bits, rebuild `num` from 1 over `len − 1`
bits. -/
def EliasDeltaDecode (s : List Bool) : ℕ :=
  let z := countZeros s
  let l := readFold z.1 1 z.2
  (readFold (l.1 - 1) 1 l.2).1

/-! ## BitWriter / BitReader (utils.h), word width W = 8·sizeof(T) -/

/-- State of `BitWriter<T>`: the words already stored through `_dptr`
(`_blocks` of them), the accumulator `_accum` (a `T` value, kept below
`2^W`), and `_used_bits`. -/
structure BWState where
  ws : List ℕ
  accum : ℕ
  used : ℕ
  deriving Repr, DecidableEq

/-- Fresh `BitWriter`: `_accum = 0`, `_used_bits = 0`, `_blocks = 0`. -/
def bwInit : BWState := ⟨[], 0, 0⟩

/-- `BitWriter::Put(x)`: `_accum <<= 1; _accum |= x;` in `T` arithmetic
(truncated mod `2^W`), and when `++_used_bits == PACKING_SIZE` store the
accumulator as the next word and reset `_used_bits`. -/
def bwPut (W : ℕ) (s : BWState) (b : Bool) : BWState :=
  let a := (2 * s.accum + (if b then 1 else 0)) % 2 ^ W
  if s.used + 1 = W then ⟨s.ws ++ [a], a, 0⟩ else ⟨s.ws, a, s.used + 1⟩

/-- Writing a whole bit sequence MSB-first with repeated `Put`. -/
def bwWrite (W : ℕ) (B : List Bool) : BWState :=
  B.foldl (bwPut W) bwInit

/-- `BitWriter::Flush()`: if `_used_bits > 0`, left-shift the accumulator by
the padding amount (zero-padding the final partial word, in `T` arithmetic)
and store it at `_dptr[_blocks]`.  Returns the resulting word array. -/
def bwFlush (W : ℕ) (s : BWState) : List ℕ :=
  if 0 < s.used then s.ws ++ [(s.accum * 2 ^ (W - s.used)) % 2 ^ W] else s.ws

/-- `BitWriter::bits()`: `_blocks * PACKING_SIZE + _used_bits`. -/
def bwBits (W : ℕ) (s : BWState) : ℕ := s.ws.length * W + s.used

/-- State of `BitReader<T>`: the words not yet loaded (`_dptr` from
`_blocks` on), the loaded accumulator, and `_used_bits`. -/
structure BRState where
  rest : List ℕ
  accum : ℕ
  used : ℕ
  deriving Repr, DecidableEq

/-- `BitReader::Get()`: when `_used_bits == 0` load the next word and set
`_used_bits = PACKING_SIZE`; return bit `--_used_bits` of the accumulator.
Reading past the array (never reached on valid streams) yields a zero word. -/
def brGet (W : ℕ) (s : BRState) : Bool × BRState :=
  if s.used = 0 then
    match s.rest with
    | [] => (Nat.testBit 0 (W - 1), ⟨[], 0, W - 1⟩)
    | w :: t => (Nat.testBit w (W - 1), ⟨t, w, W - 1⟩)
  else (Nat.testBit s.accum (s.used - 1), ⟨s.rest, s.accum, s.used - 1⟩)

/-- Reading `n` bits with repeated `Get`. -/
def brRead (W : ℕ) : ℕ → BRState → List Bool
  | 0, _ => []
  | n + 1, s =>
    let r := brGet W s
    r.1 :: brRead W n r.2

/-- Bit contents of a word array, each word contributing its `W` bits
MSB-first. -/
def wordsBits (W : ℕ) (ws : List ℕ) : List Bool :=
  ws.foldr (fun w acc => lowBits w W ++ acc) []

/-! ## Top-K compressor (impl/topk.h; implementation spec-modelled) -/

/-- Modelled from the spec: the selection order of `TopkCompressor`.  The
bodies of `TopkCompressor::Compress/Decompress` (topk.cc) are not under
`src/`; only the declarations in `impl/topk.h` are.  Per the spec, entries
are ranked by largest absolute value, ties broken by preferring the smaller
index: `i` precedes `j` iff `|src[i]| > |src[j]|`, or they are equal and
`i ≤ j`. -/
def topkRel (src : List ℚ) (i j : ℕ) : Prop :=
  |src.getD i 0| > |src.getD j 0| ∨ (|src.getD i 0| = |src.getD j 0| ∧ i ≤ j)

instance (src : List ℚ) : DecidableRel (topkRel src) := fun i j => by
  unfold topkRel
  infer_instance

instance (src : List ℚ) : IsTotal ℕ (topkRel src) where
  total a b := by
    rcases lt_trichotomy |src.getD a 0| |src.getD b 0| with h | h | h
    · exact Or.inr (Or.inl h)
    · rcases Nat.le_total a b with hab | hab
      · exact Or.inl (Or.inr ⟨h, hab⟩)
      · exact Or.inr (Or.inr ⟨h.symm, hab⟩)
    · exact Or.inl (Or.inl h)

instance (src : List ℚ) : IsTrans ℕ (topkRel src) where
  trans a b c hab hbc := by
    rcases hab with h1 | ⟨h1, hle1⟩
    · rcases hbc with h2 | ⟨h2, _⟩
      · exact Or.inl (lt_trans h2 h1)
      · exact Or.inl (by rw [← h2]; exact h1)
    · rcases hbc with h2 | ⟨h2, hle2⟩
      · exact Or.inl (by rw [h1]; exact h2)
      · exact Or.inr ⟨h1.trans h2, Nat.le_trans hle1 hle2⟩

/-- Modelled from the spec: the `k` selected indices — the first `k`
positions of the index range sorted by the Top-K order. -/
def topkIndices (src : List ℚ) (k : ℕ) : List ℕ :=
  (List.insertionSort (topkRel src) (List.range src.length)).take k

/-- Modelled from the spec: `TopkCompressor::Compress` — the `k` entries of
largest absolute value written as (u32 index, scalar value) pairs. -/
def TopkCompress (src : List ℚ) (k : ℕ) : List (ℕ × ℚ) :=
  (topkIndices src k).map (fun i => (i, src.getD i 0))

/-- Modelled from the spec: `TopkCompressor::Decompress` — zero-fill the
dense output of `n` scalars, then scatter the pairs. -/
def TopkDecompress (n : ℕ) (pairs : List (ℕ × ℚ)) : List ℚ :=
  pairs.foldl (fun acc p => acc.set p.1 p.2) (List.replicate n 0)

/-! ## Server request handler and engine shard bookkeeping (server.cc) -/

/-- Engine message operations (`BytePSEngineMessage::ops`). -/
inductive EngineOp where
  | COPY_FIRST
  | SUM_RECV
  | ALL_RECV
  | TERMINATE
  deriving DecidableEq, Repr

/-- Engine message fields used by the modelled paths: timestamp, key,
destination pointer, source pointer, length, op.  Pointers are abstract
naturals. -/
structure EngineMessage where
  timestamp : ℕ
  key : ℕ
  dst : ℕ
  src : ℕ
  len : ℕ
  op : EngineOp
  deriving DecidableEq, Repr

/-- Observable handler effects: an engine-queue push onto a shard, or a push
ack (`SendPushResponse`). -/
inductive HandlerEvent where
  | enqueue (shard : ℕ) (msg : EngineMessage)
  | pushAck (key : ℕ) (sender : ℕ)
  deriving DecidableEq, Repr

/-- `BytePSHandlePush` (server.cc): the per-key `updates.request` list holds
the buffered request metas (modelled by sender ids).  `getTid` stands for
`GetThreadID(key, workload)`, evaluated once and reused.  Returns the new
`pending_requests`, the emitted events in order, and the next timestamp.
The first-worker branch enqueues COPY_FIRST in sync mode and sums in place
in async mode; later workers enqueue SUM_RECV (blocking mode sums inline);
after appending the request and acking, the N-th request in sync mode
enqueues ALL_RECV against the same shard and clears the list, and async mode
always clears the list. -/
def BytePSHandlePush (N : ℕ) (sync blocking : Bool) (getTid : ℕ → ℕ → ℕ)
    (key workload sender storedTensor storedLen recved len ts : ℕ)
    (pending : List ℕ) : List ℕ × List HandlerEvent × ℕ :=
  let tid := getTid key workload
  let first :
    List HandlerEvent × ℕ :=
    if pending.isEmpty then
      if sync then
        ([.enqueue tid ⟨ts, key, storedTensor, recved, len, .COPY_FIRST⟩], ts + 1)
      else ([], ts)
    else
      if blocking then ([], ts)
      else ([.enqueue tid ⟨ts, key, storedTensor, recved, len, .SUM_RECV⟩], ts + 1)
  let pending1 := pending ++ [sender]
  let acked := first.1 ++ [.pushAck key sender]
  if sync then
    if pending1.length = N then
      if blocking then ([], acked, first.2)
      else
        ([], acked ++
          [.enqueue tid ⟨first.2, key, storedTensor, storedTensor, storedLen, .ALL_RECV⟩],
          first.2 + 1)
    else (pending1, acked, first.2)
  else ([], acked, first.2)

/-- Per-key shard bookkeeping (`is_push_finished_[i][key]`, `pull_cnt_[i][key]`,
`seen_sender_[i][key]`, `q_pull_reqmeta_[i][key]`).  The C++ maps
default-construct absent entries to exactly these initial values, so the
explicit `find == end` initialisation in the source is the identity here. -/
structure KeyFlagState where
  finished : Bool
  cnt : ℕ
  seen : Finset ℕ
  parked : List ℕ
  deriving DecidableEq

/-- Result of the ALL_RECV drain loop over the parked pull metas. -/
structure LoopResult where
  parked : List ℕ
  cnt : ℕ
  seen : Finset ℕ
  resps : List (ℕ × (ℕ × ℕ))
  didReset : Bool
  deriving DecidableEq

/-- Drain loop of the engine's ALL_RECV case: walk the parked pull metas;
a sender not yet in `seen_sender` gets a pull response (whose payload is the
current `updates.merged` pointer and length), `pull_cnt += 1`, is inserted
into `seen_sender` and erased from the queue, otherwise the iterator
advances; after each entry, when `pull_cnt == N` all three per-key entries
reset and the loop breaks. -/
def allRecvLoop (N : ℕ) (merged : ℕ × ℕ) : List ℕ → ℕ → Finset ℕ → LoopResult
  | [], cnt, seen => ⟨[], cnt, seen, [], false⟩
  | m :: rest, cnt, seen =>
    if m ∈ seen then
      if cnt = N then ⟨m :: rest, 0, ∅, [], true⟩
      else
        let r := allRecvLoop N merged rest cnt seen
        ⟨m :: r.parked, r.cnt, r.seen, r.resps, r.didReset⟩
    else
      if cnt + 1 = N then ⟨rest, 0, ∅, [(m, merged)], true⟩
      else
        let r := allRecvLoop N merged rest (cnt + 1) (insert m seen)
        ⟨r.parked, r.cnt, r.seen, (m, merged) :: r.resps, r.didReset⟩

/-- ALL_RECV case of `BytePSServerEngineThread`: under the shard's flag
lock, set `is_push_finished` and drain the parked pulls; `merged` is the
current `updates.merged` (pointer, length) installed just before.  Returns
the new per-key state and the pull responses sent, in order. -/
def engineAllRecv (N : ℕ) (merged : ℕ × ℕ) (s : KeyFlagState) :
    KeyFlagState × List (ℕ × (ℕ × ℕ)) :=
  let r := allRecvLoop N merged s.parked s.cnt s.seen
  (⟨if r.didReset then false else true, r.cnt, r.seen, r.parked⟩, r.resps)

/-- `BytePSHandlePull` (server.cc), sync non-blocking path: if the push is
finished and this sender has not received its pull response yet, respond
from `updates.merged`, count it and mark the sender, resetting the three
per-key entries when `pull_cnt` reaches N; otherwise park the request on the
shard's queue. -/
def BytePSHandlePull (N : ℕ) (merged : ℕ × ℕ) (sender : ℕ) (s : KeyFlagState) :
    KeyFlagState × List (ℕ × (ℕ × ℕ)) :=
  if s.finished = true ∧ sender ∉ s.seen then
    if s.cnt + 1 = N then (⟨false, 0, ∅, s.parked⟩, [(sender, merged)])
    else (⟨s.finished, s.cnt + 1, insert sender s.seen, s.parked⟩, [(sender, merged)])
  else (⟨s.finished, s.cnt, s.seen, s.parked ++ [sender]⟩, [])

/-! ## Theorems -/

theorem sumScaled_length (dst src : List ℚ) (alpha : ℚ) (h : src.length = dst.length) :
    (sumScaled dst src alpha).length = dst.length := by
  simp [sumScaled, h]

theorem sum3_length (src1 src2 : List ℚ) (alpha : ℚ) (h : src2.length = src1.length) :
    (sum3 src1 src2 alpha).length = src1.length := by
  simp [sum3, h]

theorem sumScaled_getD (dst src : List ℚ) (alpha : ℚ) (i : ℕ)
    (h1 : i < dst.length) (h2 : i < src.length) :
    (sumScaled dst src alpha).getD i 0 = dst.getD i 0 + alpha * src.getD i 0 := by
  rw [List.getD_eq_getElem _ _ (by simp [sumScaled]; omega),
    List.getD_eq_getElem _ _ h1, List.getD_eq_getElem _ _ h2]
  simp [sumScaled]

theorem sum3_getD (src1 src2 : List ℚ) (alpha : ℚ) (i : ℕ)
    (h1 : i < src1.length) (h2 : i < src2.length) :
    (sum3 src1 src2 alpha).getD i 0 = src1.getD i 0 + alpha * src2.getD i 0 := by
  rw [List.getD_eq_getElem _ _ (by simp [sum3]; omega),
    List.getD_eq_getElem _ _ h1, List.getD_eq_getElem _ _ h2]
  simp [sum3]

/-- C6.  `Momentum::Compress` performs, in order: `m ← μ·m + g` (UpdateMom),
then `g ← g + μ·m` with the updated momentum (UpdateGradient, in place), then
delegates to the inner compressor on the updated gradient; `Momentum::Decompress`
forwards its argument unchanged to the inner compressor. -/
theorem momentum_compress_step {β : Type} (inner innerD : List ℚ → β)
    (m g : List ℚ) (mu : ℚ) (hlen : m.length = g.length) :
    ((MomentumCompress inner ⟨m, mu⟩ g).2.m.length = g.length) ∧
    (∀ i, i < g.length →
      (MomentumCompress inner ⟨m, mu⟩ g).2.m.getD i 0 =
        mu * m.getD i 0 + g.getD i 0) ∧
    (∃ g1 : List ℚ,
      (MomentumCompress inner ⟨m, mu⟩ g).1 = inner g1 ∧
      g1.length = g.length ∧
      ∀ i, i < g.length →
        g1.getD i 0 = g.getD i 0 + mu * (MomentumCompress inner ⟨m, mu⟩ g).2.m.getD i 0) ∧
    (∀ c : List ℚ, MomentumDecompress innerD c = innerD c) := by
  have hm : (MomentumCompress inner ⟨m, mu⟩ g).2.m = sum3 g m mu := rfl
  have hmlen : (sum3 g m mu).length = g.length := sum3_length g m mu hlen
  refine ⟨by rw [hm]; exact hmlen, ?_, ?_, fun c => rfl⟩
  · intro i hi
    rw [hm, sum3_getD g m mu i hi (by omega), Rat.add_comm]
  · refine ⟨sumScaled g (sum3 g m mu) mu, rfl, ?_, ?_⟩
    · exact sumScaled_length g (sum3 g m mu) mu (by omega)
    · intro i hi
      rw [hm, sumScaled_getD g (sum3 g m mu) mu i hi (by omega)]

/-- Closed witness for `momentum_compress_step` at a concrete input. -/
theorem momentum_compress_step_witness :
    ([(1 : ℚ), 2].length = [(3 : ℚ), 4].length) ∧
    (((MomentumCompress (fun l => l) ⟨[(1 : ℚ), 2], 1/2⟩ [3, 4]).2.m.length = [(3 : ℚ), 4].length) ∧
    (∀ i, i < [(3 : ℚ), 4].length →
      (MomentumCompress (fun l => l) ⟨[(1 : ℚ), 2], 1/2⟩ [3, 4]).2.m.getD i 0 =
        (1/2 : ℚ) * [(1 : ℚ), 2].getD i 0 + [(3 : ℚ), 4].getD i 0) ∧
    (∃ g1 : List ℚ,
      (MomentumCompress (fun l => l) ⟨[(1 : ℚ), 2], 1/2⟩ [3, 4]).1 = g1 ∧
      g1.length = [(3 : ℚ), 4].length ∧
      ∀ i, i < [(3 : ℚ), 4].length →
        g1.getD i 0 = [(3 : ℚ), 4].getD i 0 +
          (1/2 : ℚ) * (MomentumCompress (fun l => l) ⟨[(1 : ℚ), 2], 1/2⟩ [3, 4]).2.m.getD i 0) ∧
    (∀ c : List ℚ, MomentumDecompress (fun l => l) c = c)) :=
  ⟨by decide, momentum_compress_step (fun l => l) (fun l => l) [1, 2] [3, 4] (1/2) (by decide)⟩

/-- C7.  `CorrectedErrorFeedbackCompressor::UpdateGradient` reads `cur_lr`
from the `lr.s` region, updates `g ← g + (prev_lr / cur_lr)·error` elementwise
in place, then sets `prev_lr ← cur_lr`; at `prev_lr = 0.1`, `cur_lr = 0.2`,
`error = [0.4, 0.4]`, `g = [1, 1]` the result is `g = [1.2, 1.2]` and
`prev_lr = 0.2`. -/
theorem corrected_ef_update_gradient (s : CorrectedEFState) (cur_lr : ℚ)
    (g : List ℚ) (hlen : s.error.length = g.length) :
    ((CorrectedEFUpdateGradient s cur_lr g).1.length = g.length) ∧
    (∀ i, i < g.length →
      (CorrectedEFUpdateGradient s cur_lr g).1.getD i 0 =
        g.getD i 0 + (s.pre_lr / cur_lr) * s.error.getD i 0) ∧
    ((CorrectedEFUpdateGradient s cur_lr g).2.pre_lr = cur_lr) ∧
    ((CorrectedEFUpdateGradient s cur_lr g).2.error = s.error) ∧
    (CorrectedEFUpdateGradient ⟨1/10, [2/5, 2/5]⟩ (1/5) [1, 1] =
      ([6/5, 6/5], ⟨1/5, [2/5, 2/5]⟩)) := by
  refine ⟨sumScaled_length g s.error _ hlen, ?_, rfl, rfl, by
    norm_num [CorrectedEFUpdateGradient, sumScaled]⟩
  intro i hi
  exact sumScaled_getD g s.error (s.pre_lr / cur_lr) i hi (by omega)

/-- Closed witness for `corrected_ef_update_gradient` at a concrete input. -/
theorem corrected_ef_update_gradient_witness :
    ((⟨1/10, [2/5, 2/5]⟩ : CorrectedEFState).error.length = [(1 : ℚ), 1].length) ∧
    (((CorrectedEFUpdateGradient ⟨1/10, [2/5, 2/5]⟩ (1/5) [1, 1]).1.length = [(1 : ℚ), 1].length) ∧
    (∀ i, i < [(1 : ℚ), 1].length →
      (CorrectedEFUpdateGradient ⟨1/10, [2/5, 2/5]⟩ (1/5) [1, 1]).1.getD i 0 =
        [(1 : ℚ), 1].getD i 0 +
          ((⟨1/10, [2/5, 2/5]⟩ : CorrectedEFState).pre_lr / (1/5)) *
            (⟨1/10, [2/5, 2/5]⟩ : CorrectedEFState).error.getD i 0) ∧
    ((CorrectedEFUpdateGradient ⟨1/10, [2/5, 2/5]⟩ (1/5) [1, 1]).2.pre_lr = 1/5) ∧
    ((CorrectedEFUpdateGradient ⟨1/10, [2/5, 2/5]⟩ (1/5) [1, 1]).2.error =
      (⟨1/10, [2/5, 2/5]⟩ : CorrectedEFState).error) ∧
    (CorrectedEFUpdateGradient ⟨1/10, [2/5, 2/5]⟩ (1/5) [1, 1] =
      ([6/5, 6/5], ⟨1/5, [2/5, 2/5]⟩))) :=
  ⟨by decide, corrected_ef_update_gradient ⟨1/10, [2/5, 2/5]⟩ (1/5) [1, 1] (by decide)⟩

/-- C9.  `HyperParamFinder<T>` aborts fatally (modelled as `none`) when the
name is absent and the optional flag is false, aborts fatally when the name
is present but the validation predicate rejects the parsed value, and
otherwise returns the parsed value. -/
theorem hyperparam_finder_spec {T : Type} (dflt : T) (parse : String → T)
    (kwargs : List (String × String)) (nm : String) (check : T → Bool) :
    (kwargs.lookup nm = none →
      HyperParamFinder dflt parse kwargs nm false check = none) ∧
    (∀ s, kwargs.lookup nm = some s → check (parse s) = false →
      ∀ optional, HyperParamFinder dflt parse kwargs nm optional check = none) ∧
    (∀ s, kwargs.lookup nm = some s → check (parse s) = true →
      ∀ optional, HyperParamFinder dflt parse kwargs nm optional check = some (parse s)) := by
  refine ⟨fun h => ?_, fun s hs hc optional => ?_, fun s hs hc optional => ?_⟩
  · simp [HyperParamFinder, h]
  · simp [HyperParamFinder, hs, hc]
  · simp [HyperParamFinder, hs, hc]

/-- Closed witness for `hyperparam_finder_spec` at concrete inputs. -/
theorem hyperparam_finder_spec_witness :
    ([(("k" : String), ("3" : String))].lookup "absent" = none →
      HyperParamFinder 0 String.length [("k", "3")] "absent" false (fun _ => true) = none) ∧
    (∀ s, [(("k" : String), ("3" : String))].lookup "k" = some s →
      (fun n => decide (0 < n)) (String.length s) = false →
      ∀ optional,
        HyperParamFinder 0 String.length [("k", "3")] "k" optional (fun n => decide (0 < n)) = none) ∧
    (∀ s, [(("k" : String), ("3" : String))].lookup "k" = some s →
      (fun n => decide (0 < n)) (String.length s) = true →
      ∀ optional,
        HyperParamFinder 0 String.length [("k", "3")] "k" optional (fun n => decide (0 < n)) =
          some (String.length s)) :=
  hyperparam_finder_spec 0 String.length [("k", "3")] "absent" (fun _ => true) |>.1
    |> fun h1 =>
      ⟨h1, (hyperparam_finder_spec 0 String.length [("k", "3")] "k" (fun n => decide (0 < n))).2.1,
        (hyperparam_finder_spec 0 String.length [("k", "3")] "k" (fun n => decide (0 < n))).2.2⟩

/-- C10.  When the parameter name is absent and the optional flag is true,
`HyperParamFinder<T>` returns the zero-initialized default without consulting
the validation predicate (the result is the same for every predicate); in
particular the sparse_ef registry's optional `seed` parameter bypasses its
`x != 0` check and evaluates to 0 when omitted, in which case the RNG is not
reseeded. -/
theorem hyperparam_optional_default {T : Type} (dflt : T) (parse : String → T)
    (kwargs : List (String × String)) (nm : String)
    (h : kwargs.lookup nm = none) :
    (∀ check : T → Bool, HyperParamFinder dflt parse kwargs nm true check = some dflt) ∧
    (∀ check1 check2 : T → Bool,
      HyperParamFinder dflt parse kwargs nm true check1 =
        HyperParamFinder dflt parse kwargs nm true check2) ∧
    (∀ parseN : String → ℕ, ∀ kw : List (String × String), kw.lookup "seed" = none →
      HyperParamFinder 0 parseN kw "seed" true (fun x => decide (x ≠ 0)) = some 0) ∧
    ((fun x : ℕ => decide (x ≠ 0)) 0 = false) ∧
    (∀ (α : Type) (k : ℕ) (setSeed : ℕ → α) (keep : α), SparseEFSeedRng 0 k setSeed keep = keep) := by
  refine ⟨fun check => ?_, fun check1 check2 => ?_, fun parseN kw hkw => ?_, rfl,
    fun α k setSeed keep => rfl⟩
  · simp [HyperParamFinder, h]
  · simp [HyperParamFinder, h]
  · simp [HyperParamFinder, hkw]

/-- Closed witness for `hyperparam_optional_default` at a concrete input. -/
theorem hyperparam_optional_default_witness :
    ([(("compressor_k" : String), ("8" : String))].lookup "seed" = none) ∧
    ((∀ check : ℕ → Bool,
      HyperParamFinder 0 String.length [("compressor_k", "8")] "seed" true check = some 0) ∧
    (∀ check1 check2 : ℕ → Bool,
      HyperParamFinder 0 String.length [("compressor_k", "8")] "seed" true check1 =
        HyperParamFinder 0 String.length [("compressor_k", "8")] "seed" true check2) ∧
    (∀ parseN : String → ℕ, ∀ kw : List (String × String), kw.lookup "seed" = none →
      HyperParamFinder 0 parseN kw "seed" true (fun x => decide (x ≠ 0)) = some 0) ∧
    ((fun x : ℕ => decide (x ≠ 0)) 0 = false) ∧
    (∀ (α : Type) (k : ℕ) (setSeed : ℕ → α) (keep : α), SparseEFSeedRng 0 k setSeed keep = keep)) :=
  ⟨by decide, hyperparam_optional_default 0 String.length [("compressor_k", "8")] "seed" (by decide)⟩

theorem getD_set_self (l : List ℚ) (i : ℕ) (a : ℚ) (h : i < l.length) :
    (l.set i a).getD i 0 = a := by
  rw [List.getD_eq_getElem _ _ (by simpa using h)]
  simp

theorem getD_set_ne (l : List ℚ) (i j : ℕ) (a : ℚ) (h : i ≠ j) :
    (l.set i a).getD j 0 = l.getD j 0 := by
  by_cases hj : j < l.length
  · rw [List.getD_eq_getElem _ _ (by simpa using hj), List.getD_eq_getElem _ _ hj]
    exact List.getElem_set_of_ne h a _
  · rw [List.getD_eq_default _ _ (by simpa using Nat.le_of_not_lt hj),
      List.getD_eq_default _ _ (Nat.le_of_not_lt hj)]

theorem sparseSumLoop_spec (alpha : ℚ) (idx : List ℕ) (i0 : ℕ) (dst src : List ℚ)
    (hnd : idx.Nodup) (hb : ∀ j ∈ idx, j < src.length)
    (hlen : i0 + idx.length ≤ dst.length) :
    ((sparseSumLoop alpha idx i0 dst src).1.length = dst.length) ∧
    ((sparseSumLoop alpha idx i0 dst src).2.length = src.length) ∧
    (∀ p, i0 ≤ p → p < i0 + idx.length →
      (sparseSumLoop alpha idx i0 dst src).1.getD p 0 =
        dst.getD p 0 + alpha * src.getD (idx.getD (p - i0) 0) 0) ∧
    (∀ p, p < i0 ∨ i0 + idx.length ≤ p →
      (sparseSumLoop alpha idx i0 dst src).1.getD p 0 = dst.getD p 0) ∧
    (∀ q, (sparseSumLoop alpha idx i0 dst src).2.getD q 0 =
      if q ∈ idx then 0 else src.getD q 0) := by
  induction idx generalizing i0 dst src with
  | nil =>
    refine ⟨rfl, rfl, fun p h1 h2 => by simp at h2; omega, fun p _ => rfl,
      fun q => by simp [sparseSumLoop]⟩
  | cons j rest ih =>
    have hj : j < src.length := hb j (by simp)
    have hi0 : i0 < dst.length := by simp at hlen; omega
    have hnd' : rest.Nodup := (List.nodup_cons.mp hnd).2
    have hjrest : j ∉ rest := (List.nodup_cons.mp hnd).1
    have hb' : ∀ t ∈ rest, t < (src.set j 0).length := by
      intro t ht; rw [List.length_set]; exact hb t (by simp [ht])
    have hlen' : (i0 + 1) + rest.length ≤
        (dst.set i0 (dst.getD i0 0 + src.getD j 0 * alpha)).length := by
      rw [List.length_set]; simp at hlen; omega
    obtain ⟨L1, L2, A, B, C⟩ := ih (i0 + 1)
      (dst.set i0 (dst.getD i0 0 + src.getD j 0 * alpha)) (src.set j 0) hnd' hb' hlen'
    have step : sparseSumLoop alpha (j :: rest) i0 dst src =
        sparseSumLoop alpha rest (i0 + 1)
          (dst.set i0 (dst.getD i0 0 + src.getD j 0 * alpha)) (src.set j 0) := rfl
    refine ⟨by rw [step, L1, List.length_set], by rw [step, L2, List.length_set],
      fun p h1 h2 => ?_, fun p hp => ?_, fun q => ?_⟩
    · rw [step]
      rcases Nat.eq_or_lt_of_le h1 with heq | hgt
      · rw [B p (Or.inl (by omega)), ← heq, getD_set_self dst i0 _ (by omega)]
        simp [Nat.sub_self, Rat.mul_comm]
      · have hp1 : p - i0 = (p - (i0 + 1)) + 1 := by omega
        rw [A p (by omega) (by simp at h2 ⊢; omega),
          getD_set_ne dst i0 p _ (by omega), hp1, List.getD_cons_succ]
        have hmem : rest.getD (p - (i0 + 1)) 0 ∈ rest := by
          rw [List.getD_eq_getElem _ _ (by simp at h2; omega)]
          exact List.getElem_mem _
        rw [getD_set_ne src j _ 0 (fun hc => hjrest (hc ▸ hmem))]
    · rw [step, B p (by simp at hp ⊢; omega),
        getD_set_ne dst i0 p _ (by simp at hp; omega)]
    · rw [step, C q]
      by_cases hq : q ∈ rest
      · rw [if_pos hq, if_pos (List.mem_cons_of_mem j hq)]
      · rw [if_neg hq]
        by_cases hqj : q = j
        · subst hqj
          rw [if_pos (List.mem_cons_self q rest), getD_set_self src q 0 hj]
        · rw [if_neg (by simp [hqj, hq]), getD_set_ne src j q 0 (fun hc => hqj hc.symm)]

theorem drawIndices_spec (k len : ℕ) (s : XorShiftState) (hl : 0 < len) :
    ((drawIndices k len s).1.length = k) ∧
    (∀ j ∈ (drawIndices k len s).1, j < len) := by
  induction k generalizing s with
  | zero => exact ⟨rfl, fun j hj => by simp [drawIndices] at hj⟩
  | succ n ih =>
    obtain ⟨ihl, ihb⟩ := ih (Randint s 0 len).2
    refine ⟨by simp [drawIndices, ihl], fun j hj => ?_⟩
    simp only [drawIndices, List.mem_cons] at hj
    rcases hj with hj | hj
    · subst hj
      simp only [Randint, Nat.sub_zero, Nat.add_zero]
      exact Nat.mod_lt _ hl
    · exact ihb j hj

/-- C8.  `sparse_sum` sets, for each position `i` below `|idx_list|`,
`dst[i] += α·src[idx_list[i]]` and then zeroes `src[idx_list[i]]`; it is
defined exactly for the floating dtypes (f32, f64, f16 — any other dtype is
fatal); the server-side `SparseErrorFeedbackCompressor::UpdateGradient`
samples `k` indices with replacement from `[0, tensor length)` and applies
`sparse_sum` with `α = prev_lr / cur_lr`. -/
theorem sparse_sum_update :
    (∀ (dtype : DataType) (dst src : List ℚ) (alpha : ℚ) (idx : List ℕ),
      (sparse_sum dtype dst src alpha idx).isSome = true ↔
        (dtype = .BYTEPS_FLOAT32 ∨ dtype = .BYTEPS_FLOAT64 ∨ dtype = .BYTEPS_FLOAT16)) ∧
    (∀ (dst src : List ℚ) (alpha : ℚ) (idx : List ℕ), idx.Nodup →
      (∀ j ∈ idx, j < src.length) → idx.length ≤ dst.length →
      (∀ p, p < idx.length →
        (sparseSumImpl dst src alpha idx).1.getD p 0 =
          dst.getD p 0 + alpha * src.getD (idx.getD p 0) 0) ∧
      (∀ p, idx.length ≤ p →
        (sparseSumImpl dst src alpha idx).1.getD p 0 = dst.getD p 0) ∧
      (∀ q, (sparseSumImpl dst src alpha idx).2.getD q 0 =
        if q ∈ idx then 0 else src.getD q 0)) ∧
    (∀ (st : SparseEFState) (cur_lr : ℚ) (grad : List ℚ) (dtype : DataType),
      (dtype = .BYTEPS_FLOAT32 ∨ dtype = .BYTEPS_FLOAT64 ∨ dtype = .BYTEPS_FLOAT16) →
      0 < grad.length →
      ∃ idx : List ℕ,
        idx = (drawIndices st.k grad.length st.rng).1 ∧
        idx.length = st.k ∧ (∀ j ∈ idx, j < grad.length) ∧
        SparseEFUpdateGradient st cur_lr grad dtype =
          some ((sparseSumImpl grad st.error (st.pre_lr / cur_lr) idx).1,
            ⟨cur_lr, (sparseSumImpl grad st.error (st.pre_lr / cur_lr) idx).2,
              (drawIndices st.k grad.length st.rng).2, st.k⟩)) := by
  refine ⟨fun dtype dst src alpha idx => ?_, fun dst src alpha idx hnd hb hlen => ?_,
    fun st cur_lr grad dtype hdt hg => ?_⟩
  · cases dtype <;> simp [sparse_sum]
  · obtain ⟨_, _, A, B, C⟩ := sparseSumLoop_spec alpha idx 0 dst src hnd hb (by omega)
    exact ⟨fun p hp => by simpa using A p (by omega) (by omega),
      fun p hp => B p (Or.inr (by omega)), C⟩
  · obtain ⟨hdl, hdb⟩ := drawIndices_spec st.k grad.length st.rng hg
    refine ⟨(drawIndices st.k grad.length st.rng).1, rfl, hdl, hdb, ?_⟩
    rcases hdt with h | h | h <;> subst h <;>
      simp [SparseEFUpdateGradient, sparse_sum]

/-- Closed witness for `sparse_sum_update`: the pointwise part at a concrete
input. -/
theorem sparse_sum_update_witness :
    (∀ p, p < [1, 0].length →
      (sparseSumImpl [(10 : ℚ), 20] [3, 4] (1/2) [1, 0]).1.getD p 0 =
        [(10 : ℚ), 20].getD p 0 + (1/2 : ℚ) * [(3 : ℚ), 4].getD ([1, 0].getD p 0) 0) ∧
    (∀ p, [1, 0].length ≤ p →
      (sparseSumImpl [(10 : ℚ), 20] [3, 4] (1/2) [1, 0]).1.getD p 0 =
        [(10 : ℚ), 20].getD p 0) ∧
    (∀ q, (sparseSumImpl [(10 : ℚ), 20] [3, 4] (1/2) [1, 0]).2.getD q 0 =
      if q ∈ [1, 0] then 0 else [(3 : ℚ), 4].getD q 0) :=
  sparse_sum_update.2.1 [10, 20] [3, 4] (1/2) [1, 0] (by decide)
    (by decide) (by decide)

theorem lowBits_length (v w : ℕ) : (lowBits v w).length = w := by
  induction w with
  | zero => rfl
  | succ n ih => simp [lowBits, ih]

theorem readFold_append (l rest : List Bool) (acc : ℕ) :
    readFold l.length acc (l ++ rest) =
      (l.foldl (fun a b => 2 * a + (if b then 1 else 0)) acc, rest) := by
  induction l generalizing acc with
  | nil => rfl
  | cons b t ih =>
    show readFold (t.length + 1) acc (b :: (t ++ rest)) = _
    rw [readFold, ih]
    rfl

theorem foldl_lowBits (v w acc : ℕ) :
    (lowBits v w).foldl (fun a b => 2 * a + (if b then 1 else 0)) acc =
      acc * 2 ^ w + v % 2 ^ w := by
  induction w generalizing acc with
  | zero => simp [lowBits, Nat.mod_one]
  | succ w ih =>
    have hbit : (if v.testBit w then 1 else 0) = v / 2 ^ w % 2 := by
      rcases Nat.mod_two_eq_zero_or_one (v / 2 ^ w) with h | h <;>
        simp [Nat.testBit_to_div_mod, h]
    have step : (lowBits v (w + 1)).foldl (fun a b => 2 * a + (if b then 1 else 0)) acc =
        (lowBits v w).foldl (fun a b => 2 * a + (if b then 1 else 0))
          (2 * acc + (if v.testBit w then 1 else 0)) := rfl
    rw [step, ih, hbit, pow_succ, Nat.mod_mul]
    ring

theorem countZeros_replicate (k : ℕ) (t : List Bool) :
    countZeros (List.replicate k false ++ true :: t) = (k, t) := by
  induction k with
  | zero => rfl
  | succ n ih => simp [List.replicate_succ, countZeros, ih]

theorem testBit_of_bounds (v w : ℕ) (h1 : 2 ^ w ≤ v) (h2 : v < 2 ^ (w + 1)) :
    v.testBit w = true := by
  have hp : 0 < 2 ^ w := Nat.pos_pow_of_pos w (by omega)
  have hdiv : v / 2 ^ w = 1 := by
    have hge : 1 ≤ v / 2 ^ w := (Nat.one_le_div_iff hp).mpr h1
    have hlt : v / 2 ^ w < 2 := by
      rw [Nat.div_lt_iff_lt_mul hp]
      calc v < 2 ^ (w + 1) := h2
        _ = 2 * 2 ^ w := by ring
    omega
  simp [Nat.testBit_to_div_mod, hdiv]

theorem mod_of_between (v w : ℕ) (h1 : 2 ^ w ≤ v) (h2 : v < 2 ^ (w + 1)) :
    v % 2 ^ w = v - 2 ^ w := by
  rw [Nat.mod_eq_sub_mod h1, Nat.mod_eq_of_lt]
  have : 2 ^ (w + 1) = 2 ^ w + 2 ^ w := by ring
  omega

theorem log2_eq_of_bounds (n k : ℕ) (h1 : 2 ^ k ≤ n) (h2 : n < 2 ^ (k + 1)) :
    Nat.log2 n = k := by
  have hp : 0 < 2 ^ k := Nat.pos_pow_of_pos k (by omega)
  have hn : n ≠ 0 := by omega
  have ha : k ≤ Nat.log2 n := (Nat.le_log2 hn).mpr h1
  have hb : Nat.log2 n < k + 1 := (Nat.log2_lt hn).mpr h2
  omega

/-- C4 counterexample.  At `x = 2^64 − 1` (a representable `unsigned long`),
the conversion of `x` to double in `std::log2(x)` rounds to exactly `2^64`
(round-to-nearest-even to 53 significant bits), on which `log2` is exact, so
the source computes `len = 1 + 64 = 65` while the claim’s `L = 1 + ⌊log2 x⌋`
is `64`; the emitted bit stream therefore differs from the one the claim
prescribes, refuting the claim as stated at this input. -/
theorem elias_delta_float_counterexample :
    (roundDouble (2 ^ 64 - 1) = 2 ^ 64) ∧
    (1 + Nat.log2 (roundDouble (2 ^ 64 - 1)) = 65) ∧
    (1 + Nat.log2 (2 ^ 64 - 1) = 64) ∧
    (EliasDeltaEncodeWith (Nat.log2 (roundDouble (2 ^ 64 - 1))) (2 ^ 64 - 1) ≠
      EliasDeltaEncodeWith (Nat.log2 (2 ^ 64 - 1)) (2 ^ 64 - 1)) := by
  have h63 : Nat.log2 (2 ^ 64 - 1) = 63 := log2_eq_of_bounds _ 63 (by norm_num) (by norm_num)
  have hrd : roundDouble (2 ^ 64 - 1) = 2 ^ 64 := by
    rw [roundDouble]
    simp only [h63]
    norm_num
  have h64 : Nat.log2 ((2 : ℕ) ^ 64) = 64 := log2_eq_of_bounds _ 64 (by norm_num) (by norm_num)
  have l65 : Nat.log2 65 = 6 := log2_eq_of_bounds _ 6 (by norm_num) (by norm_num)
  have l64 : Nat.log2 64 = 6 := log2_eq_of_bounds _ 6 (by norm_num) (by norm_num)
  refine ⟨hrd, by rw [hrd, h64], by rw [h63], fun hc => ?_⟩
  have hlen := congrArg List.length hc
  rw [hrd, h64, h63] at hlen
  simp only [EliasDeltaEncodeWith, List.length_append, List.length_replicate,
    lowBits_length] at hlen
  norm_num [l65, l64] at hlen

/-- C4 (amended).  `EliasDeltaEncode` computes its length through
double-precision floating point; `f` stands for the value
`std::floor(std::log2(x))` that computation returned.  Whenever `f` is the
exact `⌊log2 x⌋` — true for the spec’s examples and small inputs, but not
for all 64-bit inputs (see `elias_delta_float_counterexample`) — the encoder
emits `LL = ⌊log2 L⌋` zeros, then `L = 1 + ⌊log2 x⌋` in `LL + 1` bits, then
the low `L − 1` bits of `x`, and `EliasDeltaDecode` inverts it; in
particular encode 1 = "1", encode 2 = "0100", encode 5 = "01101" (bits as
`List Bool`, `true` printed as '1'). -/
theorem elias_delta_codec_amended (x f : ℕ) (hx : 1 ≤ x) (hf : f = Nat.log2 x) :
    (EliasDeltaEncodeWith f x =
      List.replicate (Nat.log2 (1 + Nat.log2 x)) false ++
        lowBits (1 + Nat.log2 x) (Nat.log2 (1 + Nat.log2 x) + 1) ++
        lowBits x ((1 + Nat.log2 x) - 1)) ∧
    ((EliasDeltaEncodeWith f x).length =
      Nat.log2 (1 + Nat.log2 x) + (Nat.log2 (1 + Nat.log2 x) + 1) +
        ((1 + Nat.log2 x) - 1)) ∧
    (EliasDeltaDecode (EliasDeltaEncodeWith f x) = x) ∧
    (EliasDeltaEncodeWith (Nat.log2 1) 1 = [true]) ∧
    (EliasDeltaEncodeWith (Nat.log2 2) 2 = [false, true, false, false]) ∧
    (EliasDeltaEncodeWith (Nat.log2 5) 5 = [false, true, true, false, true]) ∧
    (EliasDeltaDecode [true] = 1) ∧
    (EliasDeltaDecode [false, true, false, false] = 2) ∧
    (EliasDeltaDecode [false, true, true, false, true] = 5) := by
  subst hf
  have hx0 : x ≠ 0 := by omega
  have hL0 : 1 + Nat.log2 x ≠ 0 := by omega
  have hxlo : 2 ^ Nat.log2 x ≤ x := Nat.log2_self_le hx0
  have hxhi : x < 2 ^ (Nat.log2 x + 1) := Nat.lt_log2_self
  have hLlo : 2 ^ Nat.log2 (1 + Nat.log2 x) ≤ 1 + Nat.log2 x := Nat.log2_self_le hL0
  have hLhi : 1 + Nat.log2 x < 2 ^ (Nat.log2 (1 + Nat.log2 x) + 1) := Nat.lt_log2_self
  refine ⟨rfl, ?_, ?_, ?_, ?_, ?_, by decide, by decide, by decide⟩
  · simp [EliasDeltaEncodeWith, lowBits_length]
    omega
  · have hbit : lowBits (1 + Nat.log2 x) (Nat.log2 (1 + Nat.log2 x) + 1) =
        true :: lowBits (1 + Nat.log2 x) (Nat.log2 (1 + Nat.log2 x)) := by
      show (1 + Nat.log2 x).testBit (Nat.log2 (1 + Nat.log2 x)) :: _ = _
      rw [testBit_of_bounds _ _ hLlo hLhi]
    have henc : EliasDeltaEncodeWith (Nat.log2 x) x =
        List.replicate (Nat.log2 (1 + Nat.log2 x)) false ++
          true :: (lowBits (1 + Nat.log2 x) (Nat.log2 (1 + Nat.log2 x)) ++
            lowBits x ((1 + Nat.log2 x) - 1)) := by
      show List.replicate (Nat.log2 (1 + Nat.log2 x)) false ++
          lowBits (1 + Nat.log2 x) (Nat.log2 (1 + Nat.log2 x) + 1) ++
          lowBits x ((1 + Nat.log2 x) - 1) = _
      rw [hbit, List.append_assoc]
      rfl
    have h1 : countZeros (EliasDeltaEncodeWith (Nat.log2 x) x) =
        (Nat.log2 (1 + Nat.log2 x),
          lowBits (1 + Nat.log2 x) (Nat.log2 (1 + Nat.log2 x)) ++
            lowBits x ((1 + Nat.log2 x) - 1)) := by
      rw [henc, countZeros_replicate]
    have h2 : readFold (Nat.log2 (1 + Nat.log2 x)) 1
        (lowBits (1 + Nat.log2 x) (Nat.log2 (1 + Nat.log2 x)) ++
          lowBits x ((1 + Nat.log2 x) - 1)) =
        (1 + Nat.log2 x, lowBits x ((1 + Nat.log2 x) - 1)) := by
      have ha := readFold_append (lowBits (1 + Nat.log2 x) (Nat.log2 (1 + Nat.log2 x)))
        (lowBits x ((1 + Nat.log2 x) - 1)) 1
      rw [lowBits_length] at ha
      rw [ha, foldl_lowBits, mod_of_between _ _ hLlo hLhi]
      have hs : 1 * 2 ^ Nat.log2 (1 + Nat.log2 x) +
          (1 + Nat.log2 x - 2 ^ Nat.log2 (1 + Nat.log2 x)) = 1 + Nat.log2 x := by omega
      rw [hs]
    have h3 : readFold ((1 + Nat.log2 x) - 1) 1 (lowBits x ((1 + Nat.log2 x) - 1)) =
        (x, []) := by
      have hxlen : 1 + Nat.log2 x - 1 = Nat.log2 x := by omega
      rw [hxlen]
      have ha := readFold_append (lowBits x (Nat.log2 x)) [] 1
      rw [lowBits_length, List.append_nil] at ha
      rw [ha, foldl_lowBits, mod_of_between _ _ hxlo hxhi]
      have hs : 1 * 2 ^ Nat.log2 x + (x - 2 ^ Nat.log2 x) = x := by omega
      rw [hs]
    simp only [EliasDeltaDecode, h1, h2, h3]
  · simp [EliasDeltaEncodeWith, Nat.log2, lowBits]
  · have e2 : Nat.log2 2 = 1 := by simp [Nat.log2]
    simp [EliasDeltaEncodeWith, e2, Nat.log2, lowBits]
    decide
  · have e5 : Nat.log2 5 = 2 := by simp [Nat.log2]
    have e3 : Nat.log2 3 = 1 := by simp [Nat.log2]
    simp [EliasDeltaEncodeWith, e5, e3, lowBits]
    decide

/-- Closed witness for `elias_delta_codec_amended` at `x = 5`, `f = 2`. -/
theorem elias_delta_codec_amended_witness :
    (1 ≤ 5) ∧ ((2 : ℕ) = Nat.log2 5) ∧
    ((EliasDeltaEncodeWith 2 5 =
      List.replicate (Nat.log2 (1 + Nat.log2 5)) false ++
        lowBits (1 + Nat.log2 5) (Nat.log2 (1 + Nat.log2 5) + 1) ++
        lowBits 5 ((1 + Nat.log2 5) - 1)) ∧
    ((EliasDeltaEncodeWith 2 5).length =
      Nat.log2 (1 + Nat.log2 5) + (Nat.log2 (1 + Nat.log2 5) + 1) +
        ((1 + Nat.log2 5) - 1)) ∧
    (EliasDeltaDecode (EliasDeltaEncodeWith 2 5) = 5) ∧
    (EliasDeltaEncodeWith (Nat.log2 1) 1 = [true]) ∧
    (EliasDeltaEncodeWith (Nat.log2 2) 2 = [false, true, false, false]) ∧
    (EliasDeltaEncodeWith (Nat.log2 5) 5 = [false, true, true, false, true]) ∧
    (EliasDeltaDecode [true] = 1) ∧
    (EliasDeltaDecode [false, true, false, false] = 2) ∧
    (EliasDeltaDecode [false, true, true, false, true] = 5)) :=
  ⟨by decide, by simp [Nat.log2],
    elias_delta_codec_amended 5 2 (by decide) (by simp [Nat.log2])⟩

theorem lowBits_mod (v w m : ℕ) (h : w ≤ m) : lowBits (v % 2 ^ m) w = lowBits v w := by
  induction w with
  | zero => rfl
  | succ n ih =>
    show (v % 2 ^ m).testBit n :: lowBits (v % 2 ^ m) n = v.testBit n :: lowBits v n
    rw [ih (by omega), Nat.testBit_mod_two_pow, decide_eq_true (by omega : n < m),
      Bool.true_and]

theorem lowBits_double (a w : ℕ) (b : Bool) :
    lowBits (2 * a + (if b then 1 else 0)) (w + 1) = lowBits a w ++ [b] := by
  induction w with
  | zero =>
    show [(2 * a + (if b then 1 else 0)).testBit 0] = [b]
    rcases b with _ | _ <;>
      simp [Nat.testBit_to_div_mod, Nat.pow_zero, Nat.add_mul_mod_self_left] <;> omega
  | succ n ih =>
    show (2 * a + (if b then 1 else 0)).testBit (n + 1) ::
        lowBits (2 * a + (if b then 1 else 0)) (n + 1) = (a.testBit n :: lowBits a n) ++ [b]
    rw [ih, Nat.testBit_succ]
    have hd : (2 * a + (if b then 1 else 0)) / 2 = a := by rcases b with _ | _ <;> simp <;> omega
    rw [hd]
    rfl

theorem lowBits_shift (a w k : ℕ) :
    lowBits (a * 2 ^ k) (w + k) = lowBits a w ++ List.replicate k false := by
  induction k with
  | zero => simp
  | succ n ih =>
    have h1 : a * 2 ^ (n + 1) = 2 * (a * 2 ^ n) + (if false then 1 else 0) := by
      simp; ring
    have h2 : w + (n + 1) = (w + n) + 1 := by omega
    rw [h2, h1, lowBits_double, ih, List.append_assoc, List.replicate_succ']

theorem wordsBits_append (W : ℕ) (ws : List ℕ) (w0 : ℕ) :
    wordsBits W (ws ++ [w0]) = wordsBits W ws ++ lowBits w0 W := by
  induction ws with
  | nil => simp [wordsBits]
  | cons h t ih =>
    show lowBits h W ++ wordsBits W (t ++ [w0]) = (lowBits h W ++ wordsBits W t) ++ lowBits w0 W
    rw [ih, List.append_assoc]

theorem bwPut_inv (W : ℕ) (hW : 1 ≤ W) (s : BWState) (B0 : List Bool) (b : Bool)
    (h1 : s.used < W) (h2 : wordsBits W s.ws ++ lowBits s.accum s.used = B0)
    (h3 : s.ws.length * W + s.used = B0.length) :
    (bwPut W s b).used < W ∧
    (wordsBits W (bwPut W s b).ws ++ lowBits (bwPut W s b).accum (bwPut W s b).used =
      B0 ++ [b]) ∧
    ((bwPut W s b).ws.length * W + (bwPut W s b).used = (B0 ++ [b]).length) := by
  by_cases hc : s.used + 1 = W
  · have hstep : bwPut W s b =
        ⟨s.ws ++ [(2 * s.accum + (if b then 1 else 0)) % 2 ^ W],
          (2 * s.accum + (if b then 1 else 0)) % 2 ^ W, 0⟩ := by
      simp [bwPut, hc]
    rw [hstep]
    refine ⟨by show (0 : ℕ) < W; omega, ?_, ?_⟩
    · show wordsBits W (s.ws ++ [(2 * s.accum + (if b then 1 else 0)) % 2 ^ W]) ++
        lowBits ((2 * s.accum + (if b then 1 else 0)) % 2 ^ W) 0 = B0 ++ [b]
      have hlb : lowBits ((2 * s.accum + (if b then 1 else 0)) % 2 ^ W) W =
          lowBits s.accum s.used ++ [b] := by
        rw [lowBits_mod _ _ _ (by omega), ← hc]
        exact lowBits_double s.accum s.used b
      rw [wordsBits_append, hlb]
      show (wordsBits W s.ws ++ (lowBits s.accum s.used ++ [b])) ++ ([] : List Bool) = B0 ++ [b]
      rw [List.append_nil, ← List.append_assoc, h2]
    · show (s.ws ++ [(2 * s.accum + (if b then 1 else 0)) % 2 ^ W]).length * W + 0 =
        (B0 ++ [b]).length
      have hlen2 : (s.ws ++ [(2 * s.accum + (if b then 1 else 0)) % 2 ^ W]).length =
          s.ws.length + 1 := by simp
      rw [hlen2]
      have hdist : (s.ws.length + 1) * W = s.ws.length * W + W := by ring
      simp only [List.length_append, List.length_cons, List.length_nil]
      omega
  · have hstep : bwPut W s b =
        ⟨s.ws, (2 * s.accum + (if b then 1 else 0)) % 2 ^ W, s.used + 1⟩ := by
      simp [bwPut, hc]
    rw [hstep]
    refine ⟨by show s.used + 1 < W; omega, ?_, ?_⟩
    · show wordsBits W s.ws ++
        lowBits ((2 * s.accum + (if b then 1 else 0)) % 2 ^ W) (s.used + 1) = B0 ++ [b]
      rw [lowBits_mod _ _ _ (by omega), lowBits_double s.accum s.used b,
        ← List.append_assoc, h2]
    · show s.ws.length * W + (s.used + 1) = (B0 ++ [b]).length
      simp only [List.length_append, List.length_cons, List.length_nil]
      omega

theorem bwWrite_inv (W : ℕ) (hW : 1 ≤ W) (B : List Bool) :
    (bwWrite W B).used < W ∧
    (wordsBits W (bwWrite W B).ws ++ lowBits (bwWrite W B).accum (bwWrite W B).used = B) ∧
    ((bwWrite W B).ws.length * W + (bwWrite W B).used = B.length) := by
  suffices h : ∀ (B : List Bool) (s : BWState) (B0 : List Bool), s.used < W →
      wordsBits W s.ws ++ lowBits s.accum s.used = B0 →
      s.ws.length * W + s.used = B0.length →
      (B.foldl (bwPut W) s).used < W ∧
      (wordsBits W (B.foldl (bwPut W) s).ws ++
        lowBits (B.foldl (bwPut W) s).accum (B.foldl (bwPut W) s).used = B0 ++ B) ∧
      ((B.foldl (bwPut W) s).ws.length * W + (B.foldl (bwPut W) s).used =
        (B0 ++ B).length) by
    have h0 := h B bwInit [] (by show (0 : ℕ) < W; omega) rfl
      (by show 0 * W + 0 = 0; omega)
    simpa [bwWrite] using h0
  intro B
  induction B with
  | nil => intro s B0 h1 h2 h3; simpa using ⟨h1, h2, h3⟩
  | cons b t ih =>
    intro s B0 h1 h2 h3
    obtain ⟨p1, p2, p3⟩ := bwPut_inv W hW s B0 b h1 h2 h3
    have hfold : (b :: t).foldl (bwPut W) s = t.foldl (bwPut W) (bwPut W s b) := rfl
    rw [hfold]
    obtain ⟨q1, q2, q3⟩ := ih (bwPut W s b) (B0 ++ [b]) p1 p2 p3
    refine ⟨q1, ?_, ?_⟩
    · rw [q2, List.append_assoc]
      rfl
    · rw [q3]
      simp

theorem bwFlush_bits (W : ℕ) (hW : 1 ≤ W) (s : BWState) (B0 : List Bool)
    (h1 : s.used < W) (h2 : wordsBits W s.ws ++ lowBits s.accum s.used = B0) :
    wordsBits W (bwFlush W s) = B0 ++ List.replicate ((W - s.used) % W) false := by
  by_cases hu : 0 < s.used
  · have hstep : bwFlush W s = s.ws ++ [(s.accum * 2 ^ (W - s.used)) % 2 ^ W] := by
      simp [bwFlush, hu]
    have hWu : s.used + (W - s.used) = W := by omega
    have hmod : (W - s.used) % W = W - s.used := Nat.mod_eq_of_lt (by omega)
    rw [hstep, wordsBits_append, lowBits_mod _ _ _ (by omega), hmod]
    calc wordsBits W s.ws ++ lowBits (s.accum * 2 ^ (W - s.used)) W
        = wordsBits W s.ws ++ lowBits (s.accum * 2 ^ (W - s.used)) (s.used + (W - s.used)) := by
          rw [hWu]
      _ = wordsBits W s.ws ++ (lowBits s.accum s.used ++ List.replicate (W - s.used) false) := by
          rw [lowBits_shift]
      _ = B0 ++ List.replicate (W - s.used) false := by rw [← List.append_assoc, h2]
  · have hu0 : s.used = 0 := by omega
    have hstep : bwFlush W s = s.ws := by simp [bwFlush, hu0]
    have h2' : wordsBits W s.ws = B0 := by
      rw [← h2, hu0]
      exact (List.append_nil _).symm
    rw [hstep, h2', hu0]
    simp

theorem brRead_take (W : ℕ) (hW : 1 ≤ W) (n : ℕ) :
    ∀ s : BRState, s.used ≤ W → n ≤ s.used + s.rest.length * W →
      brRead W n s = (lowBits s.accum s.used ++ wordsBits W s.rest).take n := by
  induction n with
  | zero => intro s _ _; simp [brRead]
  | succ n ih =>
    intro s hs hn
    by_cases hu : s.used = 0
    · rcases hrest : s.rest with _ | ⟨w, t⟩
      · rw [hrest] at hn
        simp [hu] at hn
      · have hget : brGet W s = (Nat.testBit w (W - 1), ⟨t, w, W - 1⟩) := by
          simp [brGet, hu, hrest]
        have hstep : brRead W (n + 1) s = Nat.testBit w (W - 1) :: brRead W n ⟨t, w, W - 1⟩ := by
          show (brGet W s).1 :: brRead W n (brGet W s).2 = _
          rw [hget]
        have hword : lowBits w W = Nat.testBit w (W - 1) :: lowBits w (W - 1) := by
          have hW1 : W = (W - 1) + 1 := by omega
          rw [hW1]
          rfl
        have hrhs : lowBits s.accum s.used ++ wordsBits W (w :: t) =
            Nat.testBit w (W - 1) :: (lowBits w (W - 1) ++ wordsBits W t) := by
          rw [hu]
          show wordsBits W (w :: t) = _
          show lowBits w W ++ wordsBits W t = _
          rw [hword]
          rfl
        have hn' : n ≤ (W - 1) + t.length * W := by
          rw [hrest] at hn
          simp only [hu, List.length_cons, Nat.zero_add] at hn
          have hx : (t.length + 1) * W = t.length * W + W := by ring
          omega
        have hih := ih ⟨t, w, W - 1⟩ (by show W - 1 ≤ W; omega)
          (by show n ≤ (W - 1) + t.length * W; omega)
        rw [hstep, hrhs, List.take_succ_cons, hih]
    · have hget : brGet W s = (Nat.testBit s.accum (s.used - 1), ⟨s.rest, s.accum, s.used - 1⟩) := by
        simp [brGet, hu]
      have hstep : brRead W (n + 1) s =
          Nat.testBit s.accum (s.used - 1) :: brRead W n ⟨s.rest, s.accum, s.used - 1⟩ := by
        show (brGet W s).1 :: brRead W n (brGet W s).2 = _
        rw [hget]
      have hacc : lowBits s.accum s.used =
          Nat.testBit s.accum (s.used - 1) :: lowBits s.accum (s.used - 1) := by
        have hu1 : s.used = (s.used - 1) + 1 := by omega
        rw [hu1]
        rfl
      rw [hstep, hacc, List.cons_append, List.take_succ_cons,
        ih ⟨s.rest, s.accum, s.used - 1⟩ (by simp; omega) (by simp; omega)]

/-- C5.  After writing a bit sequence `B` MSB-first with `BitWriter::Put`
(word width `W = 8·sizeof(T) ≥ 1`) and calling `Flush` (which zero-pads the
final partial word), `bits()` equals `|B|`, and reading `|B|` bits back from
the flushed word array with `BitReader::Get` returns exactly `B`. -/
theorem bitio_roundtrip (W : ℕ) (hW : 1 ≤ W) (B : List Bool) :
    (bwBits W (bwWrite W B) = B.length) ∧
    (brRead W B.length ⟨bwFlush W (bwWrite W B), 0, 0⟩ = B) := by
  obtain ⟨h1, h2, h3⟩ := bwWrite_inv W hW B
  refine ⟨h3, ?_⟩
  have hflush := bwFlush_bits W hW (bwWrite W B) B h1 h2
  have hlen : B.length ≤ 0 + (bwFlush W (bwWrite W B)).length * W := by
    by_cases hu : 0 < (bwWrite W B).used
    · have hfl : bwFlush W (bwWrite W B) =
          (bwWrite W B).ws ++ [((bwWrite W B).accum * 2 ^ (W - (bwWrite W B).used)) % 2 ^ W] := by
        simp [bwFlush, hu]
      rw [hfl]
      have hlen1 : ((bwWrite W B).ws ++
          [((bwWrite W B).accum * 2 ^ (W - (bwWrite W B).used)) % 2 ^ W]).length =
          (bwWrite W B).ws.length + 1 := by simp
      rw [hlen1]
      have hx : ((bwWrite W B).ws.length + 1) * W = (bwWrite W B).ws.length * W + W := by ring
      omega
    · have hu0 : (bwWrite W B).used = 0 := by omega
      have hfl : bwFlush W (bwWrite W B) = (bwWrite W B).ws := by simp [bwFlush, hu0]
      rw [hfl]
      omega
  have hread := brRead_take W hW B.length ⟨bwFlush W (bwWrite W B), 0, 0⟩
    (by show (0 : ℕ) ≤ W; omega) hlen
  rw [hread]
  show (lowBits 0 0 ++ wordsBits W (bwFlush W (bwWrite W B))).take B.length = B
  rw [show lowBits 0 0 = [] from rfl, List.nil_append, hflush]
  have := List.take_left B (List.replicate ((W - (bwWrite W B).used) % W) false)
  simpa using this

/-- Closed witness for `bitio_roundtrip` at word width 8 and a concrete bit
sequence. -/
theorem bitio_roundtrip_witness :
    ((1 : ℕ) ≤ 8) ∧
    ((bwBits 8 (bwWrite 8 [true, false, true]) = [true, false, true].length) ∧
    (brRead 8 [true, false, true].length ⟨bwFlush 8 (bwWrite 8 [true, false, true]), 0, 0⟩ =
      [true, false, true])) :=
  ⟨by decide, bitio_roundtrip 8 (by decide) [true, false, true]⟩

theorem foldlSet_length (pairs : List (ℕ × ℚ)) :
    ∀ acc : List ℚ, (pairs.foldl (fun a p => a.set p.1 p.2) acc).length = acc.length := by
  induction pairs with
  | nil => intro acc; rfl
  | cons h t ih =>
    intro acc
    show (t.foldl (fun a p => a.set p.1 p.2) (acc.set h.1 h.2)).length = acc.length
    rw [ih, List.length_set]

theorem foldlSet_getD_notmem (pairs : List (ℕ × ℚ)) :
    ∀ (acc : List ℚ) (q : ℕ), q ∉ pairs.map Prod.fst →
      (pairs.foldl (fun a p => a.set p.1 p.2) acc).getD q 0 = acc.getD q 0 := by
  induction pairs with
  | nil => intro acc q _; rfl
  | cons h t ih =>
    intro acc q hq
    simp only [List.map_cons, List.mem_cons] at hq
    push_neg at hq
    show (t.foldl (fun a p => a.set p.1 p.2) (acc.set h.1 h.2)).getD q 0 = acc.getD q 0
    rw [ih (acc.set h.1 h.2) q hq.2, getD_set_ne acc h.1 q h.2 (fun hc => hq.1 hc.symm)]

theorem foldlSet_getD_mem (pairs : List (ℕ × ℚ)) (hnd : (pairs.map Prod.fst).Nodup) :
    ∀ p ∈ pairs, ∀ acc : List ℚ, p.1 < acc.length →
      (pairs.foldl (fun a p => a.set p.1 p.2) acc).getD p.1 0 = p.2 := by
  induction pairs with
  | nil => intro p hp; exact absurd hp (List.not_mem_nil p)
  | cons h t ih =>
    intro p hp acc hlen
    simp only [List.map_cons, List.nodup_cons] at hnd
    rcases List.mem_cons.mp hp with hph | hpt
    · subst hph
      show (t.foldl (fun a p => a.set p.1 p.2) (acc.set p.1 p.2)).getD p.1 0 = p.2
      rw [foldlSet_getD_notmem t (acc.set p.1 p.2) p.1 hnd.1,
        getD_set_self acc p.1 p.2 hlen]
    · show (t.foldl (fun a p => a.set p.1 p.2) (acc.set h.1 h.2)).getD p.1 0 = p.2
      exact ih hnd.2 p hpt (acc.set h.1 h.2) (by rw [List.length_set]; omega)

theorem getD_replicate_zero (n q : ℕ) : (List.replicate n (0 : ℚ)).getD q 0 = 0 := by
  by_cases hq : q < n
  · rw [List.getD_eq_getElem _ _ (by simp; omega)]
    exact List.getElem_replicate ..
  · rw [List.getD_eq_default]
    simp
    omega

/-- C3.  On an input of `n` scalars with `k ≤ n`, `TopkCompressor::Compress`
produces exactly `k` (index, value) pairs — byte length
`k·(sizeof(u32)+sizeof(scalar))` — whose values are read from the input and
whose indices dominate every unselected index in absolute value (ties broken
towards the smaller index); `Decompress` zero-fills the dense output and
scatters the pairs; with `k = 2` on `[0.1, −0.9, 0.3, 0.8]` the pairs are
`(1, −0.9)` and `(3, 0.8)` and decompression gives `[0, −0.9, 0, 0.8]`. -/
theorem topk_compress_decompress (src : List ℚ) (k : ℕ) (hk : k ≤ src.length) :
    ((TopkCompress src k).length = k) ∧
    (∀ s : ℕ, (TopkCompress src k).length * (4 + s) = k * (4 + s)) ∧
    (((TopkCompress src k).map Prod.fst).Nodup) ∧
    (∀ p ∈ TopkCompress src k, p.1 < src.length ∧ p.2 = src.getD p.1 0) ∧
    (∀ p ∈ TopkCompress src k, ∀ j, j < src.length →
      j ∉ (TopkCompress src k).map Prod.fst →
      |src.getD j 0| < |src.getD p.1 0| ∨
        (|src.getD j 0| = |src.getD p.1 0| ∧ p.1 < j)) ∧
    ((TopkDecompress src.length (TopkCompress src k)).length = src.length) ∧
    (∀ p ∈ TopkCompress src k,
      (TopkDecompress src.length (TopkCompress src k)).getD p.1 0 = p.2) ∧
    (∀ q, q < src.length → q ∉ (TopkCompress src k).map Prod.fst →
      (TopkDecompress src.length (TopkCompress src k)).getD q 0 = 0) ∧
    (TopkCompress [1/10, -9/10, 3/10, 8/10] 2 = [(1, -9/10), (3, 8/10)]) ∧
    (TopkDecompress 4 (TopkCompress [1/10, -9/10, 3/10, 8/10] 2) =
      [0, -9/10, 0, 8/10]) := by
  have hperm := List.perm_insertionSort (topkRel src) (List.range src.length)
  have hslen : (List.insertionSort (topkRel src) (List.range src.length)).length =
      src.length := by
    rw [hperm.length_eq, List.length_range]
  have hsnodup : (List.insertionSort (topkRel src) (List.range src.length)).Nodup :=
    hperm.nodup_iff.mpr (List.nodup_range _)
  have hsorted : (List.insertionSort (topkRel src) (List.range src.length)).Pairwise
      (topkRel src) :=
    List.sorted_insertionSort (topkRel src) (List.range src.length)
  have hidxlen : (topkIndices src k).length = k := by
    simp [topkIndices, hslen]
    omega
  have hfst : (TopkCompress src k).map Prod.fst = topkIndices src k := by
    rw [TopkCompress, List.map_map]
    have hcomp : (Prod.fst ∘ fun i : ℕ => (i, src.getD i 0)) = id := rfl
    rw [hcomp, List.map_id]
  have hidxnodup : (topkIndices src k).Nodup :=
    hsnodup.sublist (List.take_sublist _ _)
  have hidxmem : ∀ i ∈ topkIndices src k, i < src.length := by
    intro i hi
    have : i ∈ List.insertionSort (topkRel src) (List.range src.length) :=
      List.take_subset _ _ hi
    exact List.mem_range.mp (hperm.mem_iff.mp this)
  have hclen : (TopkCompress src k).length = k := by
    simp [TopkCompress, hidxlen]
  have hcmem : ∀ p ∈ TopkCompress src k, p.1 < src.length ∧ p.2 = src.getD p.1 0 := by
    intro p hp
    simp only [TopkCompress, List.mem_map] at hp
    obtain ⟨i, hi, hpi⟩ := hp
    rw [← hpi]
    exact ⟨hidxmem i hi, rfl⟩
  have hnd : ((TopkCompress src k).map Prod.fst).Nodup := by
    rw [hfst]; exact hidxnodup
  have hbound : ∀ p ∈ TopkCompress src k, p.1 < src.length := fun p hp => (hcmem p hp).1
  refine ⟨hclen, fun s => by rw [hclen], hnd, hcmem, ?_, ?_, ?_, ?_, ?_, ?_⟩
  · intro p hp j hj hjnot
    rw [hfst] at hjnot
    have hpi : p.1 ∈ topkIndices src k := by
      rw [← hfst]
      exact List.mem_map_of_mem Prod.fst hp
    have hjs : j ∈ List.insertionSort (topkRel src) (List.range src.length) :=
      hperm.mem_iff.mpr (List.mem_range.mpr hj)
    have hjdrop : j ∈ (List.insertionSort (topkRel src) (List.range src.length)).drop k := by
      rcases List.mem_append.mp
        (by rw [List.take_append_drop]; exact hjs :
          j ∈ (List.insertionSort (topkRel src) (List.range src.length)).take k ++
            (List.insertionSort (topkRel src) (List.range src.length)).drop k) with h | h
      · exact absurd h hjnot
      · exact h
    have happ : List.Pairwise (topkRel src)
        ((List.insertionSort (topkRel src) (List.range src.length)).take k ++
          (List.insertionSort (topkRel src) (List.range src.length)).drop k) := by
      rw [List.take_append_drop]
      exact hsorted
    have hcross := (List.pairwise_append.mp happ).2.2
    have hr : topkRel src p.1 j := hcross p.1 hpi j hjdrop
    have hne : p.1 ≠ j := fun hc => hjnot (hc ▸ hpi)
    rcases hr with h | ⟨h, hle⟩
    · exact Or.inl h
    · exact Or.inr ⟨h.symm, by omega⟩
  · show ((TopkCompress src k).foldl (fun a p => a.set p.1 p.2)
      (List.replicate src.length 0)).length = src.length
    rw [foldlSet_length, List.length_replicate]
  · intro p hp
    exact foldlSet_getD_mem (TopkCompress src k) hnd p hp (List.replicate src.length 0)
      (by rw [List.length_replicate]; exact hbound p hp)
  · intro q _ hqnot
    show ((TopkCompress src k).foldl (fun a p => a.set p.1 p.2)
      (List.replicate src.length 0)).getD q 0 = 0
    rw [foldlSet_getD_notmem (TopkCompress src k) _ q hqnot, getD_replicate_zero]
  · norm_num [TopkCompress, topkIndices, List.insertionSort, List.orderedInsert,
      List.range_succ, topkRel, abs_of_nonneg]
  · norm_num [TopkDecompress, TopkCompress, topkIndices, List.insertionSort,
      List.orderedInsert, List.range_succ, topkRel, abs_of_nonneg, List.replicate,
      List.set]

/-- Closed witness for `topk_compress_decompress` at the spec's concrete
input. -/
theorem topk_compress_decompress_witness :
    ((2 : ℕ) ≤ ([1/10, -9/10, 3/10, 8/10] : List ℚ).length) ∧
    (((TopkCompress [1/10, -9/10, 3/10, 8/10] 2).length = 2) ∧
      (TopkCompress [1/10, -9/10, 3/10, 8/10] 2 = [(1, -9/10), (3, 8/10)]) ∧
      (TopkDecompress 4 (TopkCompress [1/10, -9/10, 3/10, 8/10] 2) =
        [0, -9/10, 0, 8/10])) := by
  have h := topk_compress_decompress [1/10, -9/10, 3/10, 8/10] 2 (by norm_num)
  exact ⟨by norm_num, h.1, h.2.2.2.2.2.2.2.2.1, h.2.2.2.2.2.2.2.2.2⟩

theorem allRecvLoop_spec (N : ℕ) (merged : ℕ × ℕ) (parked : List ℕ) :
    ∀ (cnt : ℕ) (seen : Finset ℕ), cnt = seen.card → cnt < N →
      (((allRecvLoop N merged parked cnt seen).resps.map Prod.fst).Nodup ∧
        (∀ p ∈ (allRecvLoop N merged parked cnt seen).resps,
          p.1 ∉ seen ∧ p.2 = merged ∧ p.1 ∈ parked) ∧
        (cnt + (allRecvLoop N merged parked cnt seen).resps.length ≤ N) ∧
        ((allRecvLoop N merged parked cnt seen).didReset = true ↔
          cnt + (allRecvLoop N merged parked cnt seen).resps.length = N) ∧
        (if (allRecvLoop N merged parked cnt seen).didReset = true then
          (allRecvLoop N merged parked cnt seen).cnt = 0 ∧
            (allRecvLoop N merged parked cnt seen).seen = ∅
        else
          (allRecvLoop N merged parked cnt seen).cnt =
              cnt + (allRecvLoop N merged parked cnt seen).resps.length ∧
            (allRecvLoop N merged parked cnt seen).seen =
              seen ∪ ((allRecvLoop N merged parked cnt seen).resps.map Prod.fst).toFinset ∧
            (allRecvLoop N merged parked cnt seen).cnt =
              (allRecvLoop N merged parked cnt seen).seen.card ∧
            (allRecvLoop N merged parked cnt seen).cnt < N)) := by
  induction parked with
  | nil =>
    intro cnt seen hcard hlt
    refine ⟨by simp [allRecvLoop], by simp [allRecvLoop], by simp [allRecvLoop]; omega,
      by simp [allRecvLoop]; omega, ?_⟩
    simp [allRecvLoop]
    exact ⟨hcard, hlt⟩
  | cons m rest ih =>
    intro cnt seen hcard hlt
    by_cases hm : m ∈ seen
    · have hcne : cnt ≠ N := by omega
      have hstep : allRecvLoop N merged (m :: rest) cnt seen =
          ⟨m :: (allRecvLoop N merged rest cnt seen).parked,
            (allRecvLoop N merged rest cnt seen).cnt,
            (allRecvLoop N merged rest cnt seen).seen,
            (allRecvLoop N merged rest cnt seen).resps,
            (allRecvLoop N merged rest cnt seen).didReset⟩ := by
        simp [allRecvLoop, hm, hcne]
      obtain ⟨q1, q2, q3, q4, q5⟩ := ih cnt seen hcard hlt
      rw [hstep]
      refine ⟨q1, fun p hp => ?_, q3, q4, q5⟩
      obtain ⟨a1, a2, a3⟩ := q2 p hp
      exact ⟨a1, a2, List.mem_cons_of_mem m a3⟩
    · by_cases hcN : cnt + 1 = N
      · have hstep : allRecvLoop N merged (m :: rest) cnt seen =
            ⟨rest, 0, ∅, [(m, merged)], true⟩ := by
          simp [allRecvLoop, hm, hcN]
        rw [hstep]
        refine ⟨by simp, fun p hp => ?_, by simp; omega, by simp; omega, by simp⟩
        simp only [List.mem_singleton] at hp
        subst hp
        exact ⟨hm, rfl, by simp⟩
      · have hstep : allRecvLoop N merged (m :: rest) cnt seen =
            ⟨(allRecvLoop N merged rest (cnt + 1) (insert m seen)).parked,
              (allRecvLoop N merged rest (cnt + 1) (insert m seen)).cnt,
              (allRecvLoop N merged rest (cnt + 1) (insert m seen)).seen,
              (m, merged) :: (allRecvLoop N merged rest (cnt + 1) (insert m seen)).resps,
              (allRecvLoop N merged rest (cnt + 1) (insert m seen)).didReset⟩ := by
          simp [allRecvLoop, hm, hcN]
        have hcard' : cnt + 1 = (insert m seen).card := by
          rw [Finset.card_insert_of_not_mem hm]
          omega
        have hlt' : cnt + 1 < N := by omega
        obtain ⟨q1, q2, q3, q4, q5⟩ := ih (cnt + 1) (insert m seen) hcard' hlt'
        rw [hstep]
        refine ⟨?_, ?_, by simp; omega, ?_, ?_⟩
        · simp only [List.map_cons, List.nodup_cons]
          refine ⟨fun hc => ?_, q1⟩
          obtain ⟨p, hp, hpm⟩ := List.mem_map.mp hc
          exact (q2 p hp).1 (hpm ▸ Finset.mem_insert_self m seen)
        · intro p hp
          rcases List.mem_cons.mp hp with hph | hpt
          · subst hph
            exact ⟨hm, rfl, List.mem_cons_self m rest⟩
          · obtain ⟨a1, a2, a3⟩ := q2 p hpt
            exact ⟨fun hc => a1 (Finset.mem_insert_of_mem hc), a2,
              List.mem_cons_of_mem m a3⟩
        · simp only [List.length_cons]
          constructor
          · intro hr
            have := q4.mp hr
            omega
          · intro hr
            exact q4.mpr (by omega)
        · by_cases hr : (allRecvLoop N merged rest (cnt + 1) (insert m seen)).didReset = true
          · rw [if_pos hr] at q5
            rw [if_pos hr]
            exact q5
          · rw [if_neg hr] at q5
            obtain ⟨b1, b2, b3, b4⟩ := q5
            rw [if_neg hr]
            refine ⟨by simp only [List.length_cons]; omega, ?_, b3, b4⟩
            rw [b2]
            ext a
            simp only [Finset.mem_union, Finset.mem_insert, List.mem_toFinset,
              List.map_cons, List.mem_cons]
            tauto

/-- C1.  In sync non-blocking mode, the engine's ALL_RECV processing and the
handler's pull processing preserve the pull-bookkeeping invariant
(`pull_cnt = |seen_senders| < N`): each sender receives at most one pull
response per step (responses go only to senders not yet in `seen_senders`,
which are then marked), every response's payload is the current merged
buffer (`updates.merged` pointer and length), and exactly when `pull_cnt`
reaches N does the state reset — `is_push_finished` becomes false,
`pull_cnt` returns to 0 and `seen_senders` is cleared — readying the key for
the next step. -/
theorem pull_bookkeeping_invariant (N : ℕ) (merged : ℕ × ℕ) (s : KeyFlagState)
    (hcard : s.cnt = s.seen.card) (hlt : s.cnt < N) :
    ((((engineAllRecv N merged s).2.map Prod.fst).Nodup) ∧
      (∀ p ∈ (engineAllRecv N merged s).2,
        p.1 ∉ s.seen ∧ p.2 = merged ∧ p.1 ∈ s.parked) ∧
      (s.cnt + (engineAllRecv N merged s).2.length ≤ N) ∧
      (((engineAllRecv N merged s).1.finished = false ∧
          (engineAllRecv N merged s).1.cnt = 0 ∧
          (engineAllRecv N merged s).1.seen = ∅) ↔
        s.cnt + (engineAllRecv N merged s).2.length = N) ∧
      ((engineAllRecv N merged s).1.cnt = (engineAllRecv N merged s).1.seen.card ∧
        (engineAllRecv N merged s).1.cnt < N)) ∧
    (∀ sender : ℕ,
      (∀ p ∈ (BytePSHandlePull N merged sender s).2, p.1 = sender ∧ p.2 = merged) ∧
      ((BytePSHandlePull N merged sender s).2 ≠ [] →
        s.finished = true ∧ sender ∉ s.seen) ∧
      ((BytePSHandlePull N merged sender s).2.length ≤ 1) ∧
      (s.finished = true → sender ∉ s.seen →
        (BytePSHandlePull N merged sender s).2 = [(sender, merged)] ∧
        (((BytePSHandlePull N merged sender s).1.finished = false ∧
            (BytePSHandlePull N merged sender s).1.cnt = 0 ∧
            (BytePSHandlePull N merged sender s).1.seen = ∅) ↔ s.cnt + 1 = N) ∧
        (s.cnt + 1 ≠ N →
          (BytePSHandlePull N merged sender s).1 =
            ⟨s.finished, s.cnt + 1, insert sender s.seen, s.parked⟩)) ∧
      (¬(s.finished = true ∧ sender ∉ s.seen) →
        (BytePSHandlePull N merged sender s).2 = [] ∧
        (BytePSHandlePull N merged sender s).1 =
          ⟨s.finished, s.cnt, s.seen, s.parked ++ [sender]⟩) ∧
      ((BytePSHandlePull N merged sender s).1.cnt =
          (BytePSHandlePull N merged sender s).1.seen.card ∧
        (BytePSHandlePull N merged sender s).1.cnt < N)) := by
  obtain ⟨q1, q2, q3, q4, q5⟩ := allRecvLoop_spec N merged s.parked s.cnt s.seen hcard hlt
  have hresps : (engineAllRecv N merged s).2 =
      (allRecvLoop N merged s.parked s.cnt s.seen).resps := rfl
  have hs1 : (engineAllRecv N merged s).1 =
      ⟨if (allRecvLoop N merged s.parked s.cnt s.seen).didReset then false else true,
        (allRecvLoop N merged s.parked s.cnt s.seen).cnt,
        (allRecvLoop N merged s.parked s.cnt s.seen).seen,
        (allRecvLoop N merged s.parked s.cnt s.seen).parked⟩ := rfl
  constructor
  · rw [hresps, hs1]
    by_cases hr : (allRecvLoop N merged s.parked s.cnt s.seen).didReset = true
    · rw [if_pos hr] at q5
      obtain ⟨b1, b2⟩ := q5
      have hN' : s.cnt + (allRecvLoop N merged s.parked s.cnt s.seen).resps.length = N :=
        q4.mp hr
      rw [if_pos hr]
      refine ⟨q1, q2, q3, iff_of_true ⟨rfl, b1, b2⟩ hN', ?_⟩
      show (allRecvLoop N merged s.parked s.cnt s.seen).cnt =
        (allRecvLoop N merged s.parked s.cnt s.seen).seen.card ∧
        (allRecvLoop N merged s.parked s.cnt s.seen).cnt < N
      rw [b1, b2]
      exact ⟨by simp, by omega⟩
    · rw [if_neg hr] at q5
      obtain ⟨b1, b2, b3, b4⟩ := q5
      have hne : s.cnt + (allRecvLoop N merged s.parked s.cnt s.seen).resps.length ≠ N :=
        fun hN' => hr (q4.mpr hN')
      rw [if_neg hr]
      refine ⟨q1, q2, q3, iff_of_false (fun hc => Bool.noConfusion hc.1) hne, b3, b4⟩
  · intro sender
    by_cases hserve : s.finished = true ∧ sender ∉ s.seen
    · by_cases hcN : s.cnt + 1 = N
      · have hstep1 : (BytePSHandlePull N merged sender s).1 = ⟨false, 0, ∅, s.parked⟩ := by
          simp [BytePSHandlePull, hserve, hcN]
        have hstep2 : (BytePSHandlePull N merged sender s).2 = [(sender, merged)] := by
          simp [BytePSHandlePull, hserve, hcN]
        refine ⟨?_, fun _ => hserve, ?_, fun _ _ => ⟨hstep2, ?_, fun hc => absurd hcN hc⟩,
          fun hc => absurd hserve hc, ?_⟩
        · intro p hp
          rw [hstep2] at hp
          simp only [List.mem_singleton] at hp
          subst hp
          exact ⟨rfl, rfl⟩
        · rw [hstep2]
          simp
        · rw [hstep1]
          exact iff_of_true ⟨rfl, rfl, rfl⟩ hcN
        · rw [hstep1]
          exact ⟨by simp, by show (0 : ℕ) < N; omega⟩
      · have hstep1 : (BytePSHandlePull N merged sender s).1 =
            ⟨s.finished, s.cnt + 1, insert sender s.seen, s.parked⟩ := by
          simp [BytePSHandlePull, hserve, hcN]
        have hstep2 : (BytePSHandlePull N merged sender s).2 = [(sender, merged)] := by
          simp [BytePSHandlePull, hserve, hcN]
        refine ⟨?_, fun _ => hserve, ?_, fun _ _ => ⟨hstep2, ?_, fun _ => hstep1⟩,
          fun hc => absurd hserve hc, ?_⟩
        · intro p hp
          rw [hstep2] at hp
          simp only [List.mem_singleton] at hp
          subst hp
          exact ⟨rfl, rfl⟩
        · rw [hstep2]
          simp
        · rw [hstep1]
          refine iff_of_false (fun hc => ?_) hcN
          have : s.finished = false := hc.1
          rw [hserve.1] at this
          exact Bool.noConfusion this
        · rw [hstep1]
          refine ⟨?_, by show s.cnt + 1 < N; omega⟩
          show s.cnt + 1 = (insert sender s.seen).card
          rw [Finset.card_insert_of_not_mem hserve.2]
          omega
    · have hstep1 : (BytePSHandlePull N merged sender s).1 =
          ⟨s.finished, s.cnt, s.seen, s.parked ++ [sender]⟩ := by
        simp only [BytePSHandlePull, if_neg hserve]
      have hstep2 : (BytePSHandlePull N merged sender s).2 = [] := by
        simp only [BytePSHandlePull, if_neg hserve]
      refine ⟨?_, fun hc => absurd hstep2 hc, by rw [hstep2]; simp,
        fun h1 h2 => absurd ⟨h1, h2⟩ hserve, fun _ => ⟨hstep2, hstep1⟩, ?_⟩
      · intro p hp
        rw [hstep2] at hp
        exact absurd hp (List.not_mem_nil p)
      · rw [hstep1]
        exact ⟨hcard, hlt⟩

/-- Closed witness for `pull_bookkeeping_invariant`: two workers, a merged
buffer at (7, 16), two parked pulls. -/
theorem pull_bookkeeping_invariant_witness :
    ((⟨false, 0, ∅, [5, 6]⟩ : KeyFlagState).cnt =
      (⟨false, 0, ∅, [5, 6]⟩ : KeyFlagState).seen.card) ∧
    ((⟨false, 0, ∅, [5, 6]⟩ : KeyFlagState).cnt < 2) ∧
    (((((engineAllRecv 2 (7, 16) ⟨false, 0, ∅, [5, 6]⟩).2.map Prod.fst).Nodup) ∧
      (∀ p ∈ (engineAllRecv 2 (7, 16) ⟨false, 0, ∅, [5, 6]⟩).2,
        p.1 ∉ (⟨false, 0, ∅, [5, 6]⟩ : KeyFlagState).seen ∧ p.2 = (7, 16) ∧
          p.1 ∈ (⟨false, 0, ∅, [5, 6]⟩ : KeyFlagState).parked) ∧
      ((⟨false, 0, ∅, [5, 6]⟩ : KeyFlagState).cnt +
        (engineAllRecv 2 (7, 16) ⟨false, 0, ∅, [5, 6]⟩).2.length ≤ 2) ∧
      (((engineAllRecv 2 (7, 16) ⟨false, 0, ∅, [5, 6]⟩).1.finished = false ∧
          (engineAllRecv 2 (7, 16) ⟨false, 0, ∅, [5, 6]⟩).1.cnt = 0 ∧
          (engineAllRecv 2 (7, 16) ⟨false, 0, ∅, [5, 6]⟩).1.seen = ∅) ↔
        (⟨false, 0, ∅, [5, 6]⟩ : KeyFlagState).cnt +
          (engineAllRecv 2 (7, 16) ⟨false, 0, ∅, [5, 6]⟩).2.length = 2) ∧
      ((engineAllRecv 2 (7, 16) ⟨false, 0, ∅, [5, 6]⟩).1.cnt =
          (engineAllRecv 2 (7, 16) ⟨false, 0, ∅, [5, 6]⟩).1.seen.card ∧
        (engineAllRecv 2 (7, 16) ⟨false, 0, ∅, [5, 6]⟩).1.cnt < 2)) ∧
    (∀ sender : ℕ,
      (∀ p ∈ (BytePSHandlePull 2 (7, 16) sender ⟨false, 0, ∅, [5, 6]⟩).2,
        p.1 = sender ∧ p.2 = (7, 16)) ∧
      ((BytePSHandlePull 2 (7, 16) sender ⟨false, 0, ∅, [5, 6]⟩).2 ≠ [] →
        (⟨false, 0, ∅, [5, 6]⟩ : KeyFlagState).finished = true ∧
          sender ∉ (⟨false, 0, ∅, [5, 6]⟩ : KeyFlagState).seen) ∧
      ((BytePSHandlePull 2 (7, 16) sender ⟨false, 0, ∅, [5, 6]⟩).2.length ≤ 1) ∧
      ((⟨false, 0, ∅, [5, 6]⟩ : KeyFlagState).finished = true →
        sender ∉ (⟨false, 0, ∅, [5, 6]⟩ : KeyFlagState).seen →
        (BytePSHandlePull 2 (7, 16) sender ⟨false, 0, ∅, [5, 6]⟩).2 = [(sender, (7, 16))] ∧
        (((BytePSHandlePull 2 (7, 16) sender ⟨false, 0, ∅, [5, 6]⟩).1.finished = false ∧
            (BytePSHandlePull 2 (7, 16) sender ⟨false, 0, ∅, [5, 6]⟩).1.cnt = 0 ∧
            (BytePSHandlePull 2 (7, 16) sender ⟨false, 0, ∅, [5, 6]⟩).1.seen = ∅) ↔
          (⟨false, 0, ∅, [5, 6]⟩ : KeyFlagState).cnt + 1 = 2) ∧
        ((⟨false, 0, ∅, [5, 6]⟩ : KeyFlagState).cnt + 1 ≠ 2 →
          (BytePSHandlePull 2 (7, 16) sender ⟨false, 0, ∅, [5, 6]⟩).1 =
            ⟨(⟨false, 0, ∅, [5, 6]⟩ : KeyFlagState).finished,
              (⟨false, 0, ∅, [5, 6]⟩ : KeyFlagState).cnt + 1,
              insert sender (⟨false, 0, ∅, [5, 6]⟩ : KeyFlagState).seen,
              (⟨false, 0, ∅, [5, 6]⟩ : KeyFlagState).parked⟩)) ∧
      (¬((⟨false, 0, ∅, [5, 6]⟩ : KeyFlagState).finished = true ∧
          sender ∉ (⟨false, 0, ∅, [5, 6]⟩ : KeyFlagState).seen) →
        (BytePSHandlePull 2 (7, 16) sender ⟨false, 0, ∅, [5, 6]⟩).2 = [] ∧
        (BytePSHandlePull 2 (7, 16) sender ⟨false, 0, ∅, [5, 6]⟩).1 =
          ⟨(⟨false, 0, ∅, [5, 6]⟩ : KeyFlagState).finished,
            (⟨false, 0, ∅, [5, 6]⟩ : KeyFlagState).cnt,
            (⟨false, 0, ∅, [5, 6]⟩ : KeyFlagState).seen,
            (⟨false, 0, ∅, [5, 6]⟩ : KeyFlagState).parked ++ [sender]⟩) ∧
      ((BytePSHandlePull 2 (7, 16) sender ⟨false, 0, ∅, [5, 6]⟩).1.cnt =
          (BytePSHandlePull 2 (7, 16) sender ⟨false, 0, ∅, [5, 6]⟩).1.seen.card ∧
        (BytePSHandlePull 2 (7, 16) sender ⟨false, 0, ∅, [5, 6]⟩).1.cnt < 2))) :=
  ⟨by decide, by decide,
    pull_bookkeeping_invariant 2 (7, 16) ⟨false, 0, ∅, [5, 6]⟩ (by decide) (by decide)⟩

/-- C2.  In sync mode with the engine non-blocking, when the N-th push of a
step arrives (`pending_requests` holds the N−1 earlier entries, N ≥ 2), the
handler enqueues a SUM_RECV message for that push, acks it, then enqueues an
ALL_RECV message onto the same shard queue chosen for the key, and clears
`pending_requests`; consequently `pending_requests` never exceeds N entries
(any input below N entries is mapped below N again, through a transient
append of length at most N). -/
theorem nth_push_seals_merge (N : ℕ) (getTid : ℕ → ℕ → ℕ)
    (key workload sender storedTensor storedLen recved len ts : ℕ)
    (pending : List ℕ) (hlen : pending.length = N - 1) (hN : 2 ≤ N) :
    ((BytePSHandlePush N true false getTid key workload sender storedTensor storedLen
        recved len ts pending).1 = []) ∧
    ((BytePSHandlePush N true false getTid key workload sender storedTensor storedLen
        recved len ts pending).2.1 =
      [.enqueue (getTid key workload) ⟨ts, key, storedTensor, recved, len, .SUM_RECV⟩,
       .pushAck key sender,
       .enqueue (getTid key workload)
         ⟨ts + 1, key, storedTensor, storedTensor, storedLen, .ALL_RECV⟩]) ∧
    ((BytePSHandlePush N true false getTid key workload sender storedTensor storedLen
        recved len ts pending).2.2 = ts + 2) ∧
    (∀ pending2 : List ℕ, pending2.length < N →
      ((BytePSHandlePush N true false getTid key workload sender storedTensor storedLen
          recved len ts pending2).1.length < N) ∧
      ((pending2 ++ [sender]).length ≤ N)) := by
  have hpe : pending.isEmpty = false := by
    cases pending with
    | nil => simp at hlen; omega
    | cons a t => rfl
  have hp1 : (pending ++ [sender]).length = N := by
    simp only [List.length_append, List.length_cons, List.length_nil]
    omega
  refine ⟨?_, ?_, ?_, ?_⟩
  · simp [BytePSHandlePush, hpe, hp1]
  · simp [BytePSHandlePush, hpe, hp1]
  · simp [BytePSHandlePush, hpe, hp1]
  · intro pending2 hlt2
    constructor
    · by_cases hfull : pending2.length + 1 = N
      · simp [BytePSHandlePush, hfull]
        omega
      · simp [BytePSHandlePush, hfull]
        omega
    · simp only [List.length_append, List.length_cons, List.length_nil]
      omega

/-- Closed witness for `nth_push_seals_merge`: N = 2 workers, the second push
of a step. -/
theorem nth_push_seals_merge_witness :
    (([3] : List ℕ).length = 2 - 1) ∧ (2 ≤ 2) ∧
    (((BytePSHandlePush 2 true false (fun _ _ => 0) 7 16 4 100 16 200 16 9 [3]).1 = []) ∧
    ((BytePSHandlePush 2 true false (fun _ _ => 0) 7 16 4 100 16 200 16 9 [3]).2.1 =
      [.enqueue 0 ⟨9, 7, 100, 200, 16, .SUM_RECV⟩,
       .pushAck 7 4,
       .enqueue 0 ⟨9 + 1, 7, 100, 100, 16, .ALL_RECV⟩]) ∧
    ((BytePSHandlePush 2 true false (fun _ _ => 0) 7 16 4 100 16 200 16 9 [3]).2.2 = 9 + 2) ∧
    (∀ pending2 : List ℕ, pending2.length < 2 →
      ((BytePSHandlePush 2 true false (fun _ _ => 0) 7 16 4 100 16 200 16 9
          pending2).1.length < 2) ∧
      ((pending2 ++ [4]).length ≤ 2))) :=
  ⟨by decide, by decide,
    nth_push_seals_merge 2 (fun _ _ => 0) 7 16 4 100 16 200 16 9 [3] (by decide) (by decide)⟩

end BytePS
